import Mathlib

/-!
Verification of tinyrpc.

A shallow embedding of the call engine (`client.go`, `http_client.go`), the
request pipeline (`server.go`), the dispatch table (`service.go`) and the
discovery strategies (`xclient`) of tinyrpc, followed by theorems about
them.

Conventions of the embedding:

* `uint64` values are natural numbers, incremented modulo `2 ^ 64`;
* a Go `error` is an `Option String` (`none` is `nil`, `some msg` an error
  whose `Error()` text is `msg`);
* a `*Call` is an index into `Client.mem`, the memory holding the `Call`
  objects; `Call.doneCount` counts the executions of `call.done()` on it;
* a Go map is an association list with unique keys (`mapSet` overwrites,
  `mapDelete` removes, `List.lookup` reads);
* what the network and the codec deliver is an input of the functions
  (the outcome of `Encode`, `ReadHeader`, `ReadBody`, `Close`).
-/

namespace Tinyrpc

/-! ## Definitions: the client (`client.go`) -/

/-- The modulus of `uint64` arithmetic. -/
def U64 : Nat := 2 ^ 64

/-- A pointer to a `Call`: an index into the memory of calls. -/
abbrev Ptr := Nat

/-- The codec's `Header` (`codec/codec.go`). -/
structure Header where
  ServiceMethod : String := ""
  Seq : Nat := 0
  Error : String := ""
deriving DecidableEq, Repr

/-- The struct `Call` of `client.go`. `Reply` holds the decoded reply,
`doneCount` the number of times `done()` sent this call on its `Done`
channel. -/
structure Call where
  Seq : Nat := 0
  ServiceMethod : String := ""
  Reply : Option String := none
  Error : Option String := none
  doneCount : Nat := 0
deriving DecidableEq, Repr

/-- The package variable `ErrShutdown`. -/
def ErrShutdown : String := "connection is shut down"

/-- Go's `m[k] = v` on a map kept as an association list. -/
def mapSet (m : List (Nat × Ptr)) (k : Nat) (v : Ptr) : List (Nat × Ptr) :=
  (k, v) :: m.filter (fun e => decide (e.1 ≠ k))

/-- Go's `delete(m, k)`. -/
def mapDelete (m : List (Nat × Ptr)) (k : Nat) : List (Nat × Ptr) :=
  m.filter (fun e => decide (e.1 ≠ k))

/-- A `time.Duration`: its nanoseconds and the text its `String` method
prints. -/
structure Duration where
  ns : Int := 0
  text : String := "0s"
deriving DecidableEq, Repr

/-- The constant `MagicNumber` of `server.go`. -/
def MagicNumber : Int := 0x3bef5c

/-- The constant `GobType` of `codec/codec.go`. -/
def GobType : String := "application/gob"

/-- The constant `JsonType` of `codec/codec.go`. -/
def JsonType : String := "application/json"

/-- The struct `Option` of `server.go`. -/
structure Opt where
  MagicNumber : Int := 0
  CodecType : String := ""
  ConnectTimeout : Duration := {}
  HandleTimeout : Duration := {}
deriving DecidableEq, Repr

/-- The package variable `DefaultOption`. -/
def DefaultOption : Opt :=
  { MagicNumber := MagicNumber, CodecType := GobType,
    ConnectTimeout := { ns := 8000000000, text := "8s" } }

/-- The keys of the map `NewCodecFuncMap` after `init` of package `codec`. -/
def NewCodecFuncMap : List String := [GobType, JsonType]

/-- The struct `Client` of `client.go`, together with the memory of the
`Call` objects its ledger points to (`mem`, `nextPtr` the next free
address) and the number of times the codec was closed (`ccClosed`). The
codec and the two mutexes are not fields: what the codec returns is an input
of the methods, and the mutexes are in `Engine`. -/
structure Client where
  opt : Opt
  header : Header := {}
  seq : Nat
  pending : List (Nat × Ptr)
  closing : Bool
  shutdown : Bool
  mem : Ptr → Call
  nextPtr : Ptr := 0
  ccClosed : Nat := 0

/-- The value `&Client{seq: 1, cc: f(conn), opt: opt, pending: make(...)}`
that `NewClient` builds: counter 1, empty ledger, both flags unset. -/
def freshClient (opt : Opt) : Client :=
  { opt := opt, seq := 1, pending := [], closing := false, shutdown := false,
    mem := fun _ => {} }

/-- Function `NewClient`; `encodeErr` is what `json.NewEncoder(conn).Encode(opt)`
returns. The results are the client (`none` is `nil`) and the error. -/
def NewClient (opt : Opt) (encodeErr : Option String) : Option Client × Option String :=
  if !NewCodecFuncMap.contains opt.CodecType then
    (none, some ("invalid codec type " ++ opt.CodecType))
  else
    match encodeErr with
    | some err => (none, some err)
    | none => (some (freshClient opt), none)

/-- Assignment through a `*Call`. -/
def Client.store (client : Client) (p : Ptr) (v : Call) : Client :=
  { client with mem := Function.update client.mem p v }

/-- The method `call.done()`: one send on the call's `Done` channel. -/
def Client.done (client : Client) (p : Ptr) : Client :=
  client.store p { client.mem p with doneCount := (client.mem p).doneCount + 1 }

/-- The statement `call.Error = err`. -/
def Client.setError (client : Client) (p : Ptr) (err : String) : Client :=
  client.store p { client.mem p with Error := some err }

/-- Method `registerCall`: the new state, the returned sequence number and
the returned error. -/
def Client.registerCall (client : Client) (call : Ptr) : Client × Nat × Option String :=
  if client.closing || client.shutdown then
    (client, 0, some ErrShutdown)
  else
    let c1 := client.store call { client.mem call with Seq := client.seq }
    let c2 := { c1 with pending := mapSet c1.pending (c1.mem call).Seq call }
    let c3 := { c2 with seq := (c2.seq + 1) % U64 }
    (c3, (c3.mem call).Seq, none)

/-- Method `removeCall`: the new state and the returned `*Call` (`none` is
`nil`). -/
def Client.removeCall (client : Client) (seq : Nat) : Client × Option Ptr :=
  ({ client with pending := mapDelete client.pending seq }, client.pending.lookup seq)

/-- The loop body of `terminateCalls`, over the entries of the ledger. -/
def Client.terminateLoop (client : Client) (err : String) : List (Nat × Ptr) → Client
  | [] => client
  | (_, call) :: rest => Client.terminateLoop ((client.setError call err).done call) err rest

/-- Method `terminateCalls`. -/
def Client.terminateCalls (client : Client) (err : String) : Client :=
  let c1 := { client with shutdown := true }
  c1.terminateLoop err c1.pending

/-- Method `Close`; `ccErr` is what `client.cc.Close()` returns when it is
called. -/
def Client.Close (client : Client) (ccErr : Option String) : Client × Option String :=
  if client.closing then
    (client, some ErrShutdown)
  else
    ({ client with closing := true, ccClosed := client.ccClosed + 1 }, ccErr)

/-- Method `IsAvailable`. -/
def Client.IsAvailable (client : Client) : Bool :=
  !client.shutdown && !client.closing

/-- One ledger operation, as named by the first claim. -/
inductive Op where
  | registerCall (call : Ptr)
  | removeCall (seq : Nat)
  | terminateCalls (err : String)
  | Close (ccErr : Option String)
deriving Repr

/-- Apply one ledger operation; the second component is the sequence number
a successful `registerCall` returned. -/
def applyOp (client : Client) : Op → Client × Option Nat
  | .registerCall call =>
    match client.registerCall call with
    | (c, seq, none) => (c, some seq)
    | (c, _, some _) => (c, none)
  | .removeCall seq => ((client.removeCall seq).1, none)
  | .terminateCalls err => (client.terminateCalls err, none)
  | .Close ccErr => ((client.Close ccErr).1, none)

/-- Run a sequence of ledger operations; the second component lists the
sequence numbers returned by the successful `registerCall`s, in order. -/
def runOps (client : Client) : List Op → Client × List Nat
  | [] => (client, [])
  | op :: ops =>
    let r := applyOp client op
    let rest := runOps r.1 ops
    (rest.1, (match r.2 with | some s => [s] | none => []) ++ rest.2)

/-- The keys of the pending ledger. -/
def Client.keys (client : Client) : List Nat := client.pending.map Prod.fst

/-! ### `fmt.Errorf` without operands -/

/-- The flag characters that `doPrintf` of Go's `fmt` skips after a `%`. -/
def isFlagChar (c : Char) : Bool :=
  c == '#' || c == '0' || c == '+' || c == '-' || c == ' '

/-- The digit loop of `parsenum` of Go's `fmt`; `none` when the number is
too large (above `10 ^ 6` with a digit still to come). -/
def parsenumLoop : List Char → Nat → Bool → Option (Bool × List Char)
  | [], _, isnum => some (isnum, [])
  | c :: cs, num, isnum =>
    if c.isDigit then
      if num > 1000000 then none else parsenumLoop cs (num * 10 + (c.toNat - 48)) true
    else some (isnum, c :: cs)

/-- Function `parsenum` of Go's `fmt`: whether a number was read, and the
text after it (a number that is too large moves to the end of the text). -/
def parsenum (s : List Char) : Bool × List Char :=
  match parsenumLoop s 0 false with
  | some r => r
  | none => (false, [])

/-- Method `argNumber` of Go's `fmt` when no operand was passed: the text
after an explicit index `[n]`, whether an index was found, and whether the
argument number went bad (with no operand every index is out of range). -/
def argNumber (s : List Char) : List Char × Bool × Bool :=
  match s with
  | '[' :: r =>
    if s.length < 3 then (r, false, true)
    else
      let inner := r.takeWhile (fun c => c != ']')
      if inner.length < r.length then
        (r.drop (inner.length + 1), parsenumLoop inner 0 false == some (true, []), true)
      else (r, false, true)
  | _ => (s, false, false)

/-- The loop of `doPrintf` of Go's `fmt` when no operand was passed; `fuel`
bounds the number of iterations by the length of the format. -/
def doPrintf : Nat → List Char → List Char
  | 0, _ => []
  | fuel + 1, s =>
    match s with
    | [] => []
    | c :: cs =>
      if c != '%' then c :: doPrintf fuel cs
      else
        let s1 := cs.dropWhile isFlagChar
        let a1 := argNumber s1
        let w : List Char × List Char × Bool × Bool :=
          match a1.1 with
          | '*' :: r => ("%!(BADWIDTH)".data, r, false, a1.2.2)
          | _ => ([], (parsenum a1.1).2, a1.2.1, a1.2.2 || (a1.2.1 && (parsenum a1.1).1))
        let pr : List Char × List Char × Bool × Bool :=
          match w.2.1 with
          | '.' :: r =>
            let a2 := argNumber r
            match a2.1 with
            | '*' :: r2 => ("%!(BADPREC)".data, r2, false, w.2.2.2 || w.2.2.1 || a2.2.2)
            | _ => ([], (parsenum a2.1).2, a2.2.1, w.2.2.2 || w.2.2.1 || a2.2.2)
          | _ => ([], w.2.1, w.2.2.1, w.2.2.2)
        let a3 : List Char × Bool :=
          if pr.2.2.1 then (pr.2.1, pr.2.2.2)
          else ((argNumber pr.2.1).1, pr.2.2.2 || (argNumber pr.2.1).2.2)
        match a3.1 with
        | [] => w.1 ++ pr.1 ++ "%!(NOVERB)".data
        | v :: r =>
          w.1 ++ pr.1 ++
            (if v == '%' then ['%']
             else if a3.2 then "%!".data ++ [v] ++ "(BADINDEX)".data
             else "%!".data ++ [v] ++ "(MISSING)".data) ++ doPrintf fuel r

/-- The text of the error `fmt.Errorf(format)` of Go's standard library,
called with a format and no operand as `receive` does. -/
def Errorf (format : String) : String :=
  String.mk (doPrintf format.data.length format.data)

/-! ### `send` and `receive` -/

/-- One response frame as the read loop meets it: the header that
`ReadHeader` decoded, what `ReadBody(nil)` returns on its body, and what
`ReadBody(call.Reply)` returns on it (the decoded reply, or an error). -/
structure Frame where
  h : Header
  discard : Option String := none
  decoded : Except String String := .ok ""

/-- The statement `call := &Call{ServiceMethod: serviceMethod, ...}` of
`Go`: a fresh `Call` at the next free address. -/
def Client.newCall (client : Client) (serviceMethod : String) : Client × Ptr :=
  ({ client.store client.nextPtr { ServiceMethod := serviceMethod } with
      nextPtr := client.nextPtr + 1 }, client.nextPtr)

/-- Method `send` up to the call of `Encode`: the registration, the
completion of a rejected call, the request header. Returns the sequence
number when the call was registered. -/
def Client.sendRegister (client : Client) (call : Ptr) : Client × Option Nat :=
  match client.registerCall call with
  | (c, _, some err) => ((c.setError call err).done call, none)
  | (c, seq, none) =>
    ({ c with header := { ServiceMethod := (c.mem call).ServiceMethod, Seq := seq, Error := "" } },
      some seq)

/-- Method `send` after `Encode` returned `encodeErr`. -/
def Client.sendEncoded (client : Client) (seq : Nat) (encodeErr : Option String) : Client :=
  match encodeErr with
  | none => client
  | some err =>
    match client.removeCall seq with
    | (c, none) => c
    | (c, some call) => (c.setError call err).done call

/-- Method `send` run without interruption; `encodeErr` is what `Encode`
returns. -/
def Client.send (client : Client) (call : Ptr) (encodeErr : Option String) : Client :=
  match client.sendRegister call with
  | (c, none) => c
  | (c, some seq) => c.sendEncoded seq encodeErr

/-- One iteration of the loop of `receive` whose `ReadHeader` succeeded:
the new state and the value of `err` at the end of the iteration. -/
def Client.receiveFrame (client : Client) (f : Frame) : Client × Option String :=
  match client.removeCall f.h.Seq with
  | (c, none) => (c, f.discard)
  | (c, some call) =>
    if f.h.Error ≠ "" then
      ((c.setError call (Errorf f.h.Error)).done call, f.discard)
    else
      match f.decoded with
      | .ok v => ((c.store call { c.mem call with Reply := some v }).done call, none)
      | .error e => ((c.setError call ("reading body " ++ e)).done call, some e)

/-- Method `receive` on a connection that delivers the frames of the list
and then fails the next `ReadHeader` with `readErr` (the end of the stream or
any other read error). -/
def Client.receive (client : Client) (readErr : String) : List Frame → Client
  | [] => client.terminateCalls readErr
  | f :: rest =>
    match client.receiveFrame f with
    | (c, none) => Client.receive c readErr rest
    | (c, some err) => c.terminateCalls err

/-! ### The engine: `send`, `receive`, cancellation and `Close` interleaved -/

/-- Where the goroutine running `receive` stands: in its loop, out of the
loop with the error it will pass to `terminateCalls`, or returned. -/
inductive Loop where
  | reading
  | failed (err : String)
  | ended
deriving DecidableEq, Repr

/-- A client with its goroutines: `sending` is the holder of the mutex
`client.sending` (the call and sequence number of the `send` that is between
`registerCall` and the return of `Encode`), `loop` the state of `receive`. -/
structure Engine where
  client : Client
  sending : Option (Ptr × Nat) := none
  loop : Loop := .reading

/-- The engine right after `NewClient` returned `client` and started
`receive`. -/
def Engine.init (client : Client) : Engine := { client := client }

/-- The atomic steps of the engine: `Go` allocates a call and runs `send`
up to `Encode` (taking the sending lock); `encodeOk` and `encodeFail` are the
two returns of `Encode`; `frame` is one iteration of `receive` on a header
that was read; `headerFail` a failed `ReadHeader`; `terminate` the
`terminateCalls` that ends `receive`; `cancel` the `removeCall(call.Seq)` of
`Call` on `ctx.Done()`; `Close` the user's `Close`. -/
inductive Event where
  | Go (serviceMethod : String)
  | encodeOk
  | encodeFail (err : String)
  | frame (f : Frame)
  | headerFail (err : String)
  | terminate
  | cancel (call : Ptr)
  | Close (ccErr : Option String)

/-- One step of the engine; `none` when the step cannot be taken in this
state (its goroutine is elsewhere, or the lock it needs is held). -/
def Engine.step (e : Engine) : Event → Option Engine
  | .Go serviceMethod =>
    match e.sending with
    | some _ => none
    | none =>
      let r := e.client.newCall serviceMethod
      match r.1.sendRegister r.2 with
      | (c, none) => some { e with client := c }
      | (c, some seq) => some { e with client := c, sending := some (r.2, seq) }
  | .encodeOk =>
    match e.sending with
    | none => none
    | some (_, seq) => some { e with client := e.client.sendEncoded seq none, sending := none }
  | .encodeFail err =>
    match e.sending with
    | none => none
    | some (_, seq) =>
      some { e with client := e.client.sendEncoded seq (some err), sending := none }
  | .frame f =>
    match e.loop with
    | .reading =>
      match e.client.receiveFrame f with
      | (c, none) => some { e with client := c }
      | (c, some err) => some { e with client := c, loop := .failed err }
    | _ => none
  | .headerFail err =>
    match e.loop with
    | .reading => some { e with loop := .failed err }
    | _ => none
  | .terminate =>
    match e.loop, e.sending with
    | .failed err, none => some { e with client := e.client.terminateCalls err, loop := .ended }
    | _, _ => none
  | .cancel call =>
    if call < e.client.nextPtr ∧ (e.sending.map Prod.fst) ≠ some call then
      some { e with client := (e.client.removeCall (e.client.mem call).Seq).1 }
    else none
  | .Close ccErr => some { e with client := (e.client.Close ccErr).1 }

/-- Run a sequence of steps; `none` when one of them cannot be taken. -/
def Engine.run (e : Engine) : List Event → Option Engine
  | [] => some e
  | ev :: evs =>
    match e.step ev with
    | none => none
    | some e1 => Engine.run e1 evs

/-- The calls on which a step reaches one of the four completions: matched
by a response frame, write failure that finds the call in the ledger,
rejected at registration, pending at teardown. -/
def Engine.completedBy (e : Engine) : Event → List Ptr
  | .Go _ => if e.client.IsAvailable then [] else [e.client.nextPtr]
  | .encodeFail _ =>
    match e.sending with
    | none => []
    | some (_, seq) => (e.client.pending.lookup seq).toList
  | .frame f => (e.client.pending.lookup f.h.Seq).toList
  | .terminate => e.client.pending.map Prod.snd
  | _ => []

/-! ### Completion counts and the invariant of the engine -/

/-- The number of `done()` executions on the call at `p`. -/
def Client.dones (client : Client) (p : Ptr) : Nat := (client.mem p).doneCount

/-- The invariant of the engine: the ledger points to allocated calls, no
call is in it twice, no call was completed twice, unallocated calls and (as
long as `receive` has not returned) pending calls were never completed, and
once `receive` has returned the client is shut down with the sending lock
free. -/
structure Engine.Inv (e : Engine) : Prop where
  alloc : ∀ k p, (k, p) ∈ e.client.pending → p < e.client.nextPtr
  nodup : (e.client.pending.map Prod.snd).Nodup
  atMost : ∀ p, e.client.dones p ≤ 1
  fresh : ∀ p, e.client.nextPtr ≤ p → e.client.dones p = 0
  undone : e.loop ≠ .ended → ∀ k p, (k, p) ∈ e.client.pending → e.client.dones p = 0
  ended : e.loop = .ended → e.client.shutdown = true ∧ e.sending = none

/-- What `removeCall` followed by the completion of the call it returned
does: the effect shared by the write-failure path of `send` and by
`receive`. -/
structure RemovesAndCompletes (c c1 : Client) (k : Nat) : Prop where
  pending : c1.pending = mapDelete c.pending k
  nextPtr : c1.nextPtr = c.nextPtr
  shutdown : c1.shutdown = c.shutdown
  closing : c1.closing = c.closing
  dones : ∀ q, c1.dones q = c.dones q + (if c.pending.lookup k = some q then 1 else 0)

/-! ### Sample runs and states of the client -/

/-- A scenario: one call answered, one whose write fails, one left pending
when the header read fails. -/
def scenarioEvents : List Event :=
  [.Go "Foo.Sum", .encodeOk, .frame { h := { Seq := 1 }, decoded := .ok "5" },
   .Go "Foo.Sum", .encodeFail "broken pipe", .Go "Foo.Sum", .encodeOk, .headerFail "EOF"]

/-- The engine after the scenario. -/
def scenarioBefore : Engine :=
  ((Engine.init (freshClient DefaultOption)).run scenarioEvents).getD
    (Engine.init (freshClient DefaultOption))

/-- The engine after the teardown that follows the scenario. -/
def scenarioTeardown : Engine :=
  (scenarioBefore.step .terminate).getD (Engine.init (freshClient DefaultOption))

/-- The engine after a rejected call and a cancellation that follow the
teardown. -/
def scenarioAfter : Engine :=
  (scenarioTeardown.run [.Go "Foo.Sum", .cancel 2]).getD (Engine.init (freshClient DefaultOption))

/-- A client with one registered call, pending under sequence number 1. -/
def onePending : Client := ((freshClient DefaultOption).registerCall 0).1

/-- A client with two registered calls, pending under 1 and 2. -/
def twoPending : Client := (((freshClient DefaultOption).registerCall 0).1.registerCall 1).1

/-- A response to call 1 with no error text whose body does not decode. -/
def undecodableFrame : Frame := { h := { Seq := 1 }, decoded := .error "bad body" }

/-- A well-formed response to call 2. -/
def replyFrame : Frame := { h := { Seq := 2 }, decoded := .ok "7" }

/-! ## Definitions: the dispatch table (`service.go`) -/

/-- A `reflect.Type` as far as the code inspects it: a defined type with its
package path and name (a predeclared type has the empty package path), a
pointer type, or another unnamed type. -/
inductive GoType where
  | named (pkgPath name : String)
  | pointer (elem : GoType)
  | unnamed (descr : String)
deriving DecidableEq, Repr

/-- Method `Name` of `reflect.Type`: empty for an unnamed type. -/
def GoType.Name : GoType → String
  | .named _ name => name
  | _ => ""

/-- Method `PkgPath` of `reflect.Type`: empty for a predeclared or unnamed
type. -/
def GoType.PkgPath : GoType → String
  | .named pkgPath _ => pkgPath
  | _ => ""

/-- The type `reflect.TypeOf((*error)(nil)).Elem()`. -/
def errorType : GoType := .named "" "error"

/-- A `reflect.Method`: its name and the parameter and result types of its
function type, the receiver being the first parameter. -/
structure Method where
  Name : String
  In : List GoType
  Out : List GoType
deriving DecidableEq, Repr

/-- The struct `methodType`. -/
structure methodType where
  method : Method
  ArgType : GoType
  ReplyType : GoType
  numCalls : Nat := 0
deriving DecidableEq, Repr

/-- The struct `service`; the map `method` is an association list. -/
structure service where
  name : String
  method : List (String × methodType)
deriving DecidableEq, Repr

/-- What reflection reports on a handler: the name of its type and the
methods `reflect.TypeOf(rcvr).Method(i)` for `i < NumMethod()`. -/
structure Rcvr where
  typeName : String
  methods : List Method
deriving DecidableEq, Repr

/-- Go's `m[k] = v` on a map with string keys. -/
def tableSet {β : Type} (m : List (String × β)) (k : String) (v : β) : List (String × β) :=
  (k, v) :: m.filter (fun e => decide (e.1 ≠ k))

/-- Function `ast.IsExported`: the first character of the name is an upper
case letter; `isUpper` stands for `unicode.IsUpper`. -/
def IsExported (isUpper : Char → Bool) (name : String) : Bool :=
  match name.data with
  | [] => false
  | ch :: _ => isUpper ch

/-- Function `isExportedOrBuiltinType`. -/
def isExportedOrBuiltinType (isUpper : Char → Bool) (t : GoType) : Bool :=
  IsExported isUpper t.Name || t.PkgPath == ""

/-- The loop of `creatService` over the methods of the handler, filling the
method table. -/
def registerLoop (isUpper : Char → Bool) :
    List Method → List (String × methodType) → List (String × methodType)
  | [], table => table
  | method :: rest, table =>
    if method.In.length ≠ 3 ∨ method.Out.length ≠ 1 then
      registerLoop isUpper rest table
    else if method.Out.head? ≠ some errorType then
      registerLoop isUpper rest table
    else
      match method.In with
      | [_, argType, replyType] =>
        if !isExportedOrBuiltinType isUpper argType || !isExportedOrBuiltinType isUpper replyType then
          registerLoop isUpper rest table
        else
          registerLoop isUpper rest (tableSet table method.Name
            { method := method, ArgType := argType, ReplyType := replyType })
      | _ => registerLoop isUpper rest table

/-- Function `creatService`; `none` when `log.Fatalf` ends the process
because the name of the type is not exported. -/
def creatService (isUpper : Char → Bool) (rcvr : Rcvr) : Option service :=
  if !IsExported isUpper rcvr.typeName then none
  else some { name := rcvr.typeName, method := registerLoop isUpper rcvr.methods [] }

/-- The condition of the tenth claim: exactly two parameters besides the
receiver and exactly one result, of the error type. -/
def hasRpcShape (m : Method) : Prop :=
  m.In.length = 3 ∧ m.Out = [errorType]

/-! ## Definitions: the server (`server.go`) -/

/-- Go's `strings.Split` with a one-character separator, on the characters
of the string: all the pieces between the separators, one more than there
are separators. -/
def splitChars (sep : Char) : List Char → List (List Char)
  | [] => [[]]
  | c :: cs =>
    if c = sep then [] :: splitChars sep cs
    else
      match splitChars sep cs with
      | [] => [[c]]
      | piece :: pieces => (c :: piece) :: pieces

/-- Go's `strings.Split(s, sep)` for a separator of one character. -/
def Split (s : String) (sep : Char) : List String :=
  (splitChars sep s.data).map String.mk

/-- The struct `Server`; the `sync.Map` is an association list. -/
structure Server where
  serviceMap : List (String × service)
deriving DecidableEq, Repr

/-- Method `findService`, with its three named results `svc`, `mtype` and
`err`. The pattern `d0 :: d1 :: _` is `len(dot) >= 2` with `dot[0]` and
`dot[1]`. -/
def Server.findService (server : Server) (serviceMethod : String) :
    Option service × Option methodType × Option String :=
  match Split serviceMethod '.' with
  | d0 :: d1 :: _ =>
    match server.serviceMap.lookup d0 with
    | none => (none, none, some ("rpc r: can't find service " ++ d0))
    | some svc =>
      match svc.method.lookup d1 with
      | none => (some svc, none, some ("rpc r: can't find method " ++ d1))
      | some mtype => (some svc, some mtype, none)
  | _ => (none, none, some ("rpc r: service/method request ill-formed: " ++ serviceMethod))

/-- The text of a name before its first `.` (the whole name when it has
none). -/
def servicePart (name : String) : String :=
  String.mk (name.data.takeWhile (fun c => c != '.'))

/-- The whole remainder of a name after its first `.`. -/
def remainderPart (name : String) : String :=
  String.mk ((name.data.dropWhile (fun c => c != '.')).drop 1)

/-- The text of a name between its first `.` and its second `.` (up to the
end when there is no second one). -/
def methodPart (name : String) : String :=
  servicePart (remainderPart name)

/-- The method `Sum` of the handler type `Foo` of the tests. -/
def sumMethod : Method :=
  { Name := "Sum",
    In := [.named "main" "Foo", .named "main" "Args", .pointer (.named "" "int")],
    Out := [errorType] }

/-- The handler type `Foo` of the tests, with its method `Sum`. -/
def fooRcvr : Rcvr := { typeName := "Foo", methods := [sumMethod] }

/-- A server on which `Foo` is registered. -/
def fooServer : Server :=
  { serviceMap := match creatService Char.isUpper fooRcvr with
      | some s => [("Foo", s)]
      | none => [] }

/-! ### Notions of the claims about the dispatch table and name resolution -/

/-- Resolution with the service name and the method name given: the two
lookups of `findService` and its three outcomes after the split. -/
def Server.lookupBoth (server : Server) (svcName methName : String) :
    Option service × Option methodType × Option String :=
  match server.serviceMap.lookup svcName with
  | none => (none, none, some ("rpc r: can't find service " ++ svcName))
  | some svc =>
    match svc.method.lookup methName with
    | none => (some svc, none, some ("rpc r: can't find method " ++ methName))
    | some mtype => (some svc, some mtype, none)

/-- The method-table entry that `creatService` builds for a method with a
receiver and two further parameters. -/
def entryOf (m : Method) : methodType :=
  { method := m,
    ArgType := (m.In.drop 1).headD (.unnamed ""),
    ReplyType := (m.In.drop 2).headD (.unnamed "") }

/-- The conditions under which the loop of `creatService` enters a method:
a receiver and two further parameters, one result of the error type, and an
argument type and a reply type that are exported or builtin. -/
def eligible (isUpper : Char → Bool) (m : Method) : Prop :=
  ∃ recv argType replyType, m.In = [recv, argType, replyType] ∧ m.Out = [errorType] ∧
    isExportedOrBuiltinType isUpper argType = true ∧
    isExportedOrBuiltinType isUpper replyType = true

/-- A method of the right shape whose argument type is an unexported type
of package `main`. -/
def unexportedArgMethod : Method :=
  { Name := "Sum",
    In := [.named "main" "Foo", .named "main" "args", .pointer (.named "" "int")],
    Out := [errorType] }

/-- Eligibility can be decided by inspecting the method. -/
instance eligibleDecidable (isUpper : Char → Bool) (m : Method) : Decidable (eligible isUpper m) :=
  match hIn : m.In with
  | [recv, argType, replyType] =>
    if h : m.Out = [errorType] ∧ isExportedOrBuiltinType isUpper argType = true ∧
        isExportedOrBuiltinType isUpper replyType = true then
      isTrue ⟨recv, argType, replyType, hIn, h.1, h.2.1, h.2.2⟩
    else
      isFalse (by
        rintro ⟨r, a, b, h1, h2, h3, h4⟩
        rw [hIn] at h1
        simp only [List.cons.injEq, and_true] at h1
        obtain ⟨_, rfl, rfl⟩ := h1
        exact h ⟨h2, h3, h4⟩)
  | [] => isFalse (by rintro ⟨r, a, b, h1, _⟩; rw [hIn] at h1; simp at h1)
  | [_] => isFalse (by rintro ⟨r, a, b, h1, _⟩; rw [hIn] at h1; simp at h1)
  | [_, _] => isFalse (by rintro ⟨r, a, b, h1, _⟩; rw [hIn] at h1; simp at h1)
  | _ :: _ :: _ :: _ :: _ => isFalse (by rintro ⟨r, a, b, h1, _⟩; rw [hIn] at h1; simp at h1)

/-! ### The request pipeline -/

/-- One encoded value on the connection: a header or a body. -/
inductive Item where
  | header (h : Header)
  | body (b : String)
deriving DecidableEq, Repr

/-- The decoding side of a `codec.Codec`: what `ReadHeader` and `ReadBody`
return on the next value of the connection. Each call consumes that value. -/
structure Decoder where
  ReadHeader : Item → Except String Header
  ReadBody : methodType → Item → Except String String

/-- A decoder that behaves as the gob codec does: a header decodes as a
header, a body as a body, and a value of the other kind is a type mismatch. -/
def gobDecoder : Decoder :=
  { ReadHeader := fun item =>
      match item with
      | .header h => .ok h
      | .body _ => .error "gob: type mismatch: no fields matched compiling decoder for Header"
    ReadBody := fun _ item =>
      match item with
      | .body b => .ok b
      | .header _ => .error "gob: type mismatch" }

/-- The struct `request`; `argv` is the decoded argument. -/
structure request where
  h : Header
  svc : Option service := none
  mtype : Option methodType := none
  argv : Option String := none
deriving DecidableEq, Repr

/-- The three ways `readRequest` returns: `return nil, err`, `return req,
err` and `return req, nil`. -/
inductive ReadResult where
  | fatal (err : String)
  | failed (req : request) (err : String)
  | ok (req : request)
deriving DecidableEq, Repr

/-- Method `readRequest`: its result and the values left on the
connection. At the end of the connection a read fails with `EOF`. The
branch for a nil entry with a nil error stands for the nil dereference of
`req.mtype.newArgv()`; `findService` never returns that pair. -/
def Server.readRequest (server : Server) (cc : Decoder) (stream : List Item) :
    ReadResult × List Item :=
  match stream with
  | [] => (.fatal "EOF", [])
  | item :: rest =>
    match cc.ReadHeader item with
    | .error err => (.fatal err, rest)
    | .ok h =>
      match server.findService h.ServiceMethod with
      | (svc, mtype, some err) => (.failed { h := h, svc := svc, mtype := mtype } err, rest)
      | (svc, none, none) => (.failed { h := h, svc := svc } "nil method", rest)
      | (svc, some mtype, none) =>
        match rest with
        | [] => (.failed { h := h, svc := svc, mtype := some mtype } "EOF", [])
        | item2 :: rest2 =>
          match cc.ReadBody mtype item2 with
          | .error err => (.failed { h := h, svc := svc, mtype := some mtype } err, rest2)
          | .ok v => (.ok { h := h, svc := svc, mtype := some mtype, argv := some v }, rest2)

/-- What `serveCodec` does with a request it read: it writes an error
response with the body `invalidRequest`, or it starts `handleRequest`. -/
inductive Served where
  | errorResponse (h : Header)
  | handleRequest (req : request)
deriving DecidableEq, Repr

/-- The loop of `serveCodec`; `none` when `fuel` iterations did not reach
the end of the loop. -/
def Server.serveLoop (server : Server) (cc : Decoder) : Nat → List Item → Option (List Served)
  | 0, _ => none
  | fuel + 1, stream =>
    match server.readRequest cc stream with
    | (.fatal _, _) => some []
    | (.failed req err, rest) =>
      (server.serveLoop cc fuel rest).map
        (fun out => .errorResponse { req.h with Error := err } :: out)
    | (.ok req, rest) =>
      (server.serveLoop cc fuel rest).map (fun out => .handleRequest req :: out)

/-- Method `serveCodec` on a connection that delivers the values of
`stream`: what it does with the requests, in order. Every iteration but the
last consumes a value, so one more iteration than there are values is
enough. -/
def Server.serveCodec (server : Server) (cc : Decoder) (stream : List Item) :
    Option (List Served) :=
  server.serveLoop cc (stream.length + 1) stream

/-- A frame for the method `Foo.Missing`, which `Foo` does not have,
followed by a well-formed frame for `Foo.Sum`. -/
def missingThenSum : List Item :=
  [.header { ServiceMethod := "Foo.Missing", Seq := 1 }, .body "{1 2}",
   .header { ServiceMethod := "Foo.Sum", Seq := 2 }, .body "{3 4}"]

/-! ### `handleRequest` -/

/-- A response written with `sendResponse`: the header and the body, `none`
being `invalidRequest`. -/
structure Response where
  h : Header
  body : Option String
deriving DecidableEq, Repr

/-- Where the goroutine started by `handleRequest` stands: in the handler,
blocked on the send on `called` with the handler's result, about to send the
response, blocked on the send on `sent`, or returned. -/
inductive WorkerPc where
  | calling
  | atCalled (err : Option String) (reply : String)
  | responding (err : Option String) (reply : String)
  | atSent
  | returned
deriving DecidableEq, Repr

/-- Where `handleRequest` itself stands: waiting for `called` (alone, or in
the `select` with the timer), waiting for `sent`, or returned. -/
inductive MainPc where
  | waiting
  | atSent
  | returned
deriving DecidableEq, Repr

/-- The state of one `handleRequest`: the header `req.h` shared by the two
goroutines, the timeout, the two program counters and the responses written
to the connection so far. -/
structure Handling where
  h : Header
  timeout : Duration
  worker : WorkerPc := .calling
  main : MainPc := .waiting
  wire : List Response := []
deriving DecidableEq, Repr

/-- The steps of `handleRequest`: the handler returns, the rendezvous on
the unbuffered channel `called`, the worker's `sendResponse`, the rendezvous
on `sent`, and the `time.After` case of the `select`. -/
inductive HEvent where
  | handlerReturns (err : Option String) (reply : String)
  | called
  | workerResponds
  | sent
  | timerFires
deriving DecidableEq, Repr

/-- The text of the timeout error of `handleRequest`. -/
def timeoutText (timeout : Duration) : String :=
  "rpc r: request handle timeout: expect within " ++ timeout.text

/-- One step of `handleRequest`; `none` when the step cannot be taken. -/
def Handling.step (s : Handling) : HEvent → Option Handling
  | .handlerReturns err reply =>
    match s.worker with
    | .calling => some { s with worker := .atCalled err reply }
    | _ => none
  | .called =>
    match s.worker, s.main with
    | .atCalled err reply, .waiting => some { s with worker := .responding err reply, main := .atSent }
    | _, _ => none
  | .workerResponds =>
    match s.worker with
    | .responding (some err) _ =>
      some { s with h := { s.h with Error := err },
                    wire := s.wire ++ [{ h := { s.h with Error := err }, body := none }],
                    worker := .atSent }
    | .responding none reply =>
      some { s with wire := s.wire ++ [{ h := s.h, body := some reply }], worker := .atSent }
    | _ => none
  | .sent =>
    match s.worker, s.main with
    | .atSent, .atSent => some { s with worker := .returned, main := .returned }
    | _, _ => none
  | .timerFires =>
    if s.timeout.ns ≠ 0 ∧ s.main = .waiting then
      some { s with h := { s.h with Error := timeoutText s.timeout },
                    wire := s.wire ++ [{ h := { s.h with Error := timeoutText s.timeout },
                                         body := none }],
                    main := .returned }
    else none

/-- Run a sequence of steps of `handleRequest`. -/
def Handling.run (s : Handling) : List HEvent → Option Handling
  | [] => some s
  | ev :: evs =>
    match s.step ev with
    | none => none
    | some s1 => Handling.run s1 evs

/-- The state in which `handleRequest` starts: the handler is running and
`handleRequest` waits. -/
def Handling.init (h : Header) (timeout : Duration) : Handling :=
  { h := h, timeout := timeout }

/-! ### Registration of a handler -/

/-- Method `Register`; `none` when `creatService` ended the process with
`log.Fatalf`. Otherwise the new server and the returned error. The method
`LoadOrStore` of `sync.Map` keeps an earlier binding of the name and reports
it, and stores the service when the name is not bound. -/
def Server.Register (isUpper : Char → Bool) (server : Server) (rcvr : Rcvr) :
    Option (Server × Option String) :=
  match creatService isUpper rcvr with
  | none => none
  | some s =>
    match server.serviceMap.lookup s.name with
    | some _ => some (server, some ("rpc: service already defined: " ++ s.name))
    | none => some ({ serviceMap := (s.name, s) :: server.serviceMap }, none)

/-- A handler whose type name `foo` is not exported. -/
def unexportedRcvr : Rcvr := { typeName := "foo", methods := [] }

/-- A response to call 1 that carries the error text of a handler. -/
def percentFrame : Frame := { h := { Seq := 1, Error := "disk 100% full" } }

/-! ### `ServeConn` -/

/-- What `ServeConn` did on one connection: whether it called `serveCodec`,
what `serveCodec` did with the requests, and how often the connection was
closed. -/
structure ConnOutcome where
  entered : Bool
  served : List Served
  closes : Nat
deriving DecidableEq, Repr

/-- Method `ServeConn`. `preamble` is what `json.NewDecoder(conn).Decode(&opt)`
yields (an error, or the decoded `Option`), `codecs` gives the decoder that
the constructor registered for a codec type builds on the connection, and
`stream` is what the connection delivers after the preamble. The deferred
`conn.Close()` runs on every path; after the loop `serveCodec` closes the
codec, which closes the connection as well. -/
def Server.ServeConn (server : Server) (codecs : String → Decoder)
    (preamble : Except String Opt) (stream : List Item) : ConnOutcome :=
  match preamble with
  | .error _ => { entered := false, served := [], closes := 1 }
  | .ok opt =>
    if opt.MagicNumber ≠ MagicNumber then
      { entered := false, served := [], closes := 1 }
    else if !NewCodecFuncMap.contains opt.CodecType then
      { entered := false, served := [], closes := 1 }
    else
      { entered := true,
        served := (server.serveCodec (codecs opt.CodecType) stream).getD [],
        closes := 2 }

/-! ### Dialing (`client.go`, `http_client.go`) -/

/-- Function `parseOptions`. An argument is `none` for a nil pointer. The
first pattern is `len(opts) == 0`, the second `opts[0] == nil`, and the test
on `rest` is `len(opts) != 1`. -/
def parseOptions (opts : List (Option Opt)) : Option Opt × Option String :=
  match opts with
  | [] => (some DefaultOption, none)
  | none :: _ => (some DefaultOption, none)
  | some opt :: rest =>
    if rest.length + 1 ≠ 1 then
      (none, some "number of options is more than 1")
    else
      let opt1 := { opt with MagicNumber := DefaultOption.MagicNumber }
      if opt1.CodecType = "" then
        (some { opt1 with CodecType := DefaultOption.CodecType }, none)
      else
        (some opt1, none)

/-- The constant `connected` of `http_client.go`. -/
def connected : String := "200 Connected to Gee RPC"

/-- Function `NewHTTPClient`; `resp` is what `http.ReadResponse` returns
after the `CONNECT` request was written: an error, or the status of the
response. -/
def NewHTTPClient (opt : Opt) (resp : Except String String) (encodeErr : Option String) :
    Option Client × Option String :=
  match resp with
  | .ok status =>
    if status = connected then NewClient opt encodeErr
    else (none, some ("unexpected HTTP response: " ++ status))
  | .error err => (none, some err)

/-- Function `dialTimeout`. `f` is the constructor argument applied to the
connection, `dialErr` what `net.DialTimeout` returns, `encodeErr` what
encoding the options returns inside `NewClient`, and `timerFirst` tells
whether the `select` takes the timer before the result of `f`. The third
result tells whether the deferred function closed the connection. The branch
for no option and no error stands for the nil dereference of
`opt.ConnectTimeout`; `parseOptions` never returns that pair. -/
def dialTimeout (f : Opt → Option Client × Option String) (opts : List (Option Opt))
    (dialErr encodeErr : Option String) (timerFirst : Bool) :
    Option Client × Option String × Bool :=
  match parseOptions opts with
  | (_, some err) => (none, some err, false)
  | (none, none) => (none, none, false)
  | (some opt, none) =>
    match dialErr with
    | some err => (none, some err, false)
    | none =>
      if opt.ConnectTimeout.ns = 0 then
        ((NewClient opt encodeErr).1, (NewClient opt encodeErr).2,
          (NewClient opt encodeErr).2.isSome)
      else if timerFirst then
        (none, some ("rpc client: connect timeout: expect within " ++ opt.ConnectTimeout.text),
          true)
      else
        ((f opt).1, (f opt).2, (f opt).2.isSome)

/-- Function `DialHTTP`. -/
def DialHTTP (resp : Except String String) (opts : List (Option Opt))
    (dialErr encodeErr : Option String) (timerFirst : Bool) :
    Option Client × Option String × Bool :=
  dialTimeout (fun opt => NewHTTPClient opt resp encodeErr) opts dialErr encodeErr timerFirst

/-- Function `Dial`. -/
def Dial (opts : List (Option Opt)) (dialErr encodeErr : Option String) (timerFirst : Bool) :
    Option Client × Option String × Bool :=
  dialTimeout (fun opt => NewClient opt encodeErr) opts dialErr encodeErr timerFirst

/-- An option that asks for no connect timeout. -/
def noTimeoutOption : Opt := { ConnectTimeout := { ns := 0, text := "0s" } }

/-! ## Definitions: discovery (`xclient/discovery_registry.go`, `xclient/etcd.go`) -/

/-- Function `unicode.IsSpace` of Go's standard library: the white space
characters of Latin-1 and the characters with the Unicode property
`White_Space`. -/
def isSpace (c : Char) : Bool :=
  c.toNat == 9 || c.toNat == 10 || c.toNat == 11 || c.toNat == 12 || c.toNat == 13 ||
  c.toNat == 32 || c.toNat == 0x85 || c.toNat == 0xA0 || c.toNat == 0x1680 ||
  (0x2000 ≤ c.toNat && c.toNat ≤ 0x200a) || c.toNat == 0x2028 || c.toNat == 0x2029 ||
  c.toNat == 0x202f || c.toNat == 0x205f || c.toNat == 0x3000

/-- Trimming of trailing white space, on the characters of a string. -/
def trimRight (l : List Char) : List Char :=
  (l.reverse.dropWhile isSpace).reverse

/-- Go's `strings.TrimSpace`: the string without its leading and trailing
white space. -/
def TrimSpace (s : String) : String :=
  String.mk (trimRight (s.data.dropWhile isSpace))

/-- The struct `RegistryDiscovery`. `servers` is the field of the embedded
`MultiServersDiscovery` that the methods of `discovery_registry.go` assign;
`timeout` is the `time.Duration`; `lastUpdate` is the `time.Time`, as
nanoseconds on one time line. -/
structure RegistryDiscovery where
  servers : List String
  registry : String
  timeout : Duration
  lastUpdate : Int
deriving DecidableEq, Repr

/-- The constant `defaultUpdateTimeout`: ten seconds. -/
def defaultUpdateTimeout : Duration := { ns := 10000000000, text := "10s" }

/-- The zero `time.Time` (1 January of year 1), in nanoseconds relative to
the Unix epoch. -/
def zeroTime : Int := -62135596800000000000

/-- Function `NewRegistryDiscovery`. -/
def NewRegistryDiscovery (registerAddr : String) (timeout : Duration) : RegistryDiscovery :=
  { servers := [], registry := registerAddr,
    timeout := if timeout.ns = 0 then defaultUpdateTimeout else timeout,
    lastUpdate := zeroTime }

/-- The loop of `Refresh` over the pieces of the header: `acc` is
`d.servers` as built so far. -/
def refreshLoop : List String → List String → List String
  | [], acc => acc
  | server :: rest, acc =>
    if TrimSpace server ≠ "" then refreshLoop rest (acc ++ [TrimSpace server])
    else refreshLoop rest acc

/-- Method `Refresh` of `RegistryDiscovery`. `now` is `time.Now()` at the
staleness test, `get` what `http.Get` yields (an error, or the value of the
header `X-tinyrpc-Servers` of the response), `after` is `time.Now()` when the
refresh is recorded. The results are the new state, the returned error and
whether the GET was issued. -/
def RegistryDiscovery.Refresh (d : RegistryDiscovery) (now : Int) (get : Except String String)
    (after : Int) : RegistryDiscovery × Option String × Bool :=
  if d.lastUpdate + d.timeout.ns > now then
    (d, none, false)
  else
    match get with
    | .error err => (d, some err, true)
    | .ok header =>
      ({ d with servers := refreshLoop (Split header ',') [], lastUpdate := after }, none, true)

/-- Method `Get` of `RegistryDiscovery`. `selectServer` stands for the
method `Get` of the embedded `MultiServersDiscovery` applied to the mode:
the address it picks and its error. The results are the new state, what
`Get` returns and whether the GET was issued. -/
def RegistryDiscovery.Get (d : RegistryDiscovery)
    (selectServer : List String → String × Option String) (now : Int)
    (get : Except String String) (after : Int) :
    RegistryDiscovery × (String × Option String) × Bool :=
  match d.Refresh now get after with
  | (d1, some err, issued) => (d1, ("", some err), issued)
  | (d1, none, issued) => (d1, selectServer d1.servers, issued)

/-- The struct `EtcdDiscovery`: the field `servers` of the embedded
`MultiServersDiscovery`, and the key. -/
structure EtcdDiscovery where
  servers : List String
  key : String := ""
deriving DecidableEq, Repr

/-- The loop of `DeleteServer`: `before` is `d.servers[:i]` and the list
argument `d.servers[i:]`; the result is `d.servers` when the loop ends. -/
def deleteLoop (server : String) : List String → List String → List String
  | before, [] => before
  | before, x :: rest =>
    if x = server then before ++ rest else deleteLoop server (before ++ [x]) rest

/-- Method `DeleteServer`. -/
def EtcdDiscovery.DeleteServer (d : EtcdDiscovery) (server : String) : EtcdDiscovery :=
  { d with servers := deleteLoop server [] d.servers }

/-- Method `AddServer`. -/
def EtcdDiscovery.AddServer (d : EtcdDiscovery) (server : String) : EtcdDiscovery :=
  { d with servers := d.servers ++ [server] }

/-- A selection that picks the first address, for the sample runs. -/
def firstServer (servers : List String) : String × Option String :=
  match servers with
  | [] => ("", some "rpc discovery: no available servers")
  | s :: _ => (s, none)

end Tinyrpc

namespace Tinyrpc

/-! ## Theorems -/

/-! ### The ledger operations leave the bookkeeping fields alone -/

@[simp] theorem store_seq (c : Client) (p : Ptr) (v : Call) : (c.store p v).seq = c.seq := rfl
@[simp] theorem store_pending (c : Client) (p : Ptr) (v : Call) :
    (c.store p v).pending = c.pending := rfl
@[simp] theorem store_closing (c : Client) (p : Ptr) (v : Call) :
    (c.store p v).closing = c.closing := rfl
@[simp] theorem store_shutdown (c : Client) (p : Ptr) (v : Call) :
    (c.store p v).shutdown = c.shutdown := rfl
@[simp] theorem store_nextPtr (c : Client) (p : Ptr) (v : Call) :
    (c.store p v).nextPtr = c.nextPtr := rfl
@[simp] theorem store_ccClosed (c : Client) (p : Ptr) (v : Call) :
    (c.store p v).ccClosed = c.ccClosed := rfl
@[simp] theorem store_header (c : Client) (p : Ptr) (v : Call) :
    (c.store p v).header = c.header := rfl
@[simp] theorem store_mem_same (c : Client) (p : Ptr) (v : Call) : (c.store p v).mem p = v := by
  simp [Client.store]
theorem store_mem_ne (c : Client) (p q : Ptr) (v : Call) (h : q ≠ p) :
    (c.store p v).mem q = c.mem q := by
  simp [Client.store, Function.update, h]

theorem terminateLoop_fields (err : String) (l : List (Nat × Ptr)) (c : Client) :
    (c.terminateLoop err l).seq = c.seq ∧ (c.terminateLoop err l).pending = c.pending ∧
    (c.terminateLoop err l).closing = c.closing ∧ (c.terminateLoop err l).shutdown = c.shutdown ∧
    (c.terminateLoop err l).nextPtr = c.nextPtr ∧ (c.terminateLoop err l).ccClosed = c.ccClosed ∧
    (c.terminateLoop err l).header = c.header := by
  induction l generalizing c with
  | nil => simp [Client.terminateLoop]
  | cons e rest ih =>
    obtain ⟨k, p⟩ := e
    simp only [Client.terminateLoop]
    have := ih ((c.setError p err).done p)
    simpa [Client.done, Client.setError] using this

theorem terminateCalls_fields (c : Client) (err : String) :
    (c.terminateCalls err).seq = c.seq ∧ (c.terminateCalls err).pending = c.pending ∧
    (c.terminateCalls err).closing = c.closing ∧ (c.terminateCalls err).shutdown = true ∧
    (c.terminateCalls err).nextPtr = c.nextPtr ∧ (c.terminateCalls err).ccClosed = c.ccClosed ∧
    (c.terminateCalls err).header = c.header := by
  have := terminateLoop_fields err c.pending { c with shutdown := true }
  simpa [Client.terminateCalls] using this

theorem mem_mapDelete (m : List (Nat × Ptr)) (k : Nat) (e : Nat × Ptr) :
    e ∈ mapDelete m k ↔ e ∈ m ∧ e.1 ≠ k := by
  simp [mapDelete]

theorem mem_mapSet (m : List (Nat × Ptr)) (k : Nat) (v : Ptr) (e : Nat × Ptr) :
    e ∈ mapSet m k v ↔ e = (k, v) ∨ (e ∈ m ∧ e.1 ≠ k) := by
  simp [mapSet]

/-! ### Sequence-number allocation -/

/-- What one ledger operation does to the counter and to the keys of the
ledger, when `n` registrations have succeeded so far. -/
theorem applyOp_alloc (c : Client) (op : Op) (n : Nat)
    (hseq : c.seq = (n + 1) % U64) (hkeys : ∀ k ∈ c.keys, 1 ≤ k ∧ k ≤ n) (hn : n + 1 < U64) :
    ((applyOp c op).2 = none ∧ (applyOp c op).1.seq = c.seq ∧
      ∀ k ∈ (applyOp c op).1.keys, 1 ≤ k ∧ k ≤ n) ∨
    ((applyOp c op).2 = some (n + 1) ∧ (applyOp c op).1.seq = (n + 2) % U64 ∧
      ∀ k ∈ (applyOp c op).1.keys, 1 ≤ k ∧ k ≤ n + 1) := by
  cases op with
  | registerCall call =>
    by_cases hav : (c.closing || c.shutdown) = true
    · left
      simp [applyOp, Client.registerCall, hav]
      exact hkeys
    · right
      have hmod : (n + 1) % U64 = n + 1 := Nat.mod_eq_of_lt hn
      simp only [applyOp, Client.registerCall, hav, Bool.false_eq_true, if_false]
      refine ⟨by simp [hseq, hmod], by simp [hseq, hmod], ?_⟩
      intro k hk
      simp only [Client.keys, List.mem_map] at hk
      obtain ⟨e, he, rfl⟩ := hk
      simp only [store_pending, store_mem_same, mem_mapSet] at he
      rcases he with he | ⟨he, _⟩
      · subst he
        simp [hseq, hmod]
      · have := hkeys e.1 (by simp only [Client.keys, List.mem_map]; exact ⟨e, he, rfl⟩)
        omega
  | removeCall seq =>
    left
    refine ⟨rfl, rfl, ?_⟩
    intro k hk
    simp only [applyOp, Client.removeCall, Client.keys, List.mem_map, mem_mapDelete] at hk
    obtain ⟨e, ⟨he, _⟩, rfl⟩ := hk
    exact hkeys e.1 (by simp only [Client.keys, List.mem_map]; exact ⟨e, he, rfl⟩)
  | terminateCalls err =>
    left
    obtain ⟨h1, h2, _⟩ := terminateCalls_fields c err
    refine ⟨rfl, h1, ?_⟩
    intro k hk
    simp only [applyOp, Client.keys, h2] at hk
    exact hkeys k hk
  | Close ccErr =>
    left
    by_cases hcl : c.closing = true
    · simp [applyOp, Client.Close, hcl]
      exact hkeys
    · simp [applyOp, Client.Close, hcl]
      exact hkeys

/-- The allocation invariant along a whole run that starts after `n`
successful registrations. -/
theorem runOps_alloc (ops : List Op) (c : Client) (n : Nat)
    (hseq : c.seq = (n + 1) % U64) (hkeys : ∀ k ∈ c.keys, 1 ≤ k ∧ k ≤ n)
    (hn : n + (runOps c ops).2.length < U64) :
    (runOps c ops).2 = List.range' (n + 1) (runOps c ops).2.length ∧
    (runOps c ops).1.seq = (n + (runOps c ops).2.length + 1) % U64 ∧
    ∀ k ∈ (runOps c ops).1.keys, 1 ≤ k ∧ k ≤ n + (runOps c ops).2.length := by
  induction ops generalizing c n with
  | nil => simpa [runOps] using ⟨hseq, hkeys⟩
  | cons op ops ih =>
    simp only [runOps] at hn ⊢
    by_cases hlt : n + 1 < U64
    · rcases applyOp_alloc c op n hseq hkeys hlt with ⟨h2, hs, hk⟩ | ⟨h2, hs, hk⟩
      · rw [h2] at hn ⊢
        simp only [List.nil_append] at hn ⊢
        exact ih (applyOp c op).1 n (hs.trans hseq) hk hn
      · rw [h2] at hn ⊢
        simp only [List.singleton_append, List.length_cons] at hn ⊢
        have := ih (applyOp c op).1 (n + 1) hs hk (by omega)
        obtain ⟨h1, h3, h4⟩ := this
        refine ⟨?_, ?_, ?_⟩
        · rw [List.range'_succ, ← h1]
        · rw [h3]; congr 1; omega
        · intro k hk'
          have := h4 k hk'
          omega
    · -- no room for a further registration: every later `registerCall` is excluded by `hn`
      have hcases : (applyOp c op).2 = none ∨ ∃ s, (applyOp c op).2 = some s := by
        cases (applyOp c op).2 <;> simp
      rcases hcases with h2 | ⟨s, h2⟩
      · rw [h2] at hn ⊢
        simp only [List.nil_append] at hn ⊢
        have hfields : (applyOp c op).1.seq = c.seq ∧ (applyOp c op).1.keys ⊆ c.keys := by
          cases op with
          | registerCall call =>
            by_cases hav : (c.closing || c.shutdown) = true
            · simp [applyOp, Client.registerCall, hav]
            · simp [applyOp, Client.registerCall, hav] at h2
          | removeCall seq =>
            refine ⟨rfl, ?_⟩
            intro k hk
            simp only [applyOp, Client.removeCall, Client.keys, List.mem_map, mem_mapDelete] at hk
            obtain ⟨e, ⟨he, _⟩, rfl⟩ := hk
            simp only [Client.keys, List.mem_map]; exact ⟨e, he, rfl⟩
          | terminateCalls err =>
            obtain ⟨h1, h2, _⟩ := terminateCalls_fields c err
            exact ⟨h1, by simp [applyOp, Client.keys, h2]⟩
          | Close ccErr =>
            by_cases hcl : c.closing = true
            · simp [applyOp, Client.Close, hcl]
            · simp [applyOp, Client.Close, hcl, Client.keys]
        exact ih (applyOp c op).1 n (hfields.1.trans hseq)
          (fun k hk => hkeys k (hfields.2 hk)) hn
      · rw [h2] at hn
        simp only [List.singleton_append, List.length_cons] at hn
        omega

/-- A run of `n` registrations on an open client: all succeed, the counter
advances by `n` modulo `2 ^ 64`, and the last number handed out is a key of
the ledger. -/
theorem runOps_replicate_register (p : Ptr) (n : Nat) (c : Client)
    (hc : c.closing = false) (hs : c.shutdown = false) (hlt : c.seq < U64) :
    (runOps c (List.replicate n (Op.registerCall p))).2.length = n ∧
    (runOps c (List.replicate n (Op.registerCall p))).1.seq = (c.seq + n) % U64 ∧
    (1 ≤ n → (c.seq + (n - 1)) % U64 ∈ (runOps c (List.replicate n (Op.registerCall p))).1.keys) := by
  induction n generalizing c with
  | zero => simp [runOps, Nat.mod_eq_of_lt hlt]
  | succ n ih =>
    have hU : 0 < U64 := by decide
    have hstep : ∃ c1, applyOp c (Op.registerCall p) = (c1, some c.seq) ∧ c1.closing = false ∧
        c1.shutdown = false ∧ c1.seq = (c.seq + 1) % U64 ∧ c1.pending = mapSet c.pending c.seq p :=
      ⟨{ (c.store p { c.mem p with Seq := c.seq }) with
          pending := mapSet c.pending c.seq p, seq := (c.seq + 1) % U64 },
        by simp [applyOp, Client.registerCall, hc, hs], hc, hs, rfl, rfl⟩
    obtain ⟨c1, happ, hc1, hs1, hseq1, hpend1⟩ := hstep
    simp only [List.replicate_succ, runOps, happ]
    obtain ⟨h1, h2, h3⟩ := ih c1 hc1 hs1 (by rw [hseq1]; exact Nat.mod_lt _ hU)
    refine ⟨by simp [h1], ?_, ?_⟩
    · rw [h2, hseq1]
      simp only [Nat.mod_add_mod]
      congr 1; omega
    · intro _
      rcases Nat.eq_zero_or_pos n with h0 | hpos
      · subst h0
        simp [runOps, Client.keys, hpend1, mapSet, Nat.mod_eq_of_lt hlt]
      · have := h3 hpos
        rw [hseq1] at this
        simp only [Nat.mod_add_mod] at this
        have he : c.seq + 1 + (n - 1) = c.seq + (n + 1 - 1) := by omega
        rw [he] at this
        exact this

/-- When `NewClient` returns a client, it is the fresh one. -/
theorem NewClient_success (opt : Opt) (encodeErr : Option String) (client : Client)
    (h : NewClient opt encodeErr = (some client, none)) : client = freshClient opt := by
  simp only [NewClient] at h
  split at h
  · simp at h
  · cases encodeErr with
    | some err => simp at h
    | none =>
      simp only [Prod.mk.injEq, Option.some.injEq, and_true] at h
      exact h.symm

/-- C1, as amended: from a client freshly built by `NewClient` and for
every sequence of `registerCall`, `removeCall`, `terminateCalls` and `Close`
operations with fewer than `2 ^ 64` successful registrations, the k-th
successful `registerCall` returns `k`; so every allocated number is at least
1, the numbers are strictly increasing (hence pairwise distinct) in
allocation order, every key of the ledger is an allocated number, the
counter is the number of registrations plus one modulo `2 ^ 64`, and every
key of the ledger is smaller than the counter as long as fewer than
`2 ^ 64 - 1` registrations have succeeded. -/
theorem registerCall_allocates_in_order (opt : Opt) (encodeErr : Option String) (client : Client)
    (hnew : NewClient opt encodeErr = (some client, none)) (ops : List Op)
    (h : (runOps client ops).2.length < U64) :
    client.seq = 1 ∧ client.pending = [] ∧
    (runOps client ops).2 = List.range' 1 (runOps client ops).2.length ∧
    (∀ s ∈ (runOps client ops).2, 1 ≤ s) ∧
    (runOps client ops).2.Pairwise (fun a b => a < b) ∧
    (∀ k ∈ (runOps client ops).1.keys, 1 ≤ k ∧ k ≤ (runOps client ops).2.length) ∧
    (runOps client ops).1.seq = ((runOps client ops).2.length + 1) % U64 ∧
    ((runOps client ops).2.length + 1 < U64 →
      ∀ k ∈ (runOps client ops).1.keys, k < (runOps client ops).1.seq) := by
  have hc := NewClient_success opt encodeErr client hnew
  subst hc
  have hinit : (freshClient opt).seq = (0 + 1) % U64 := by
    show 1 = (0 + 1) % U64
    decide
  have hkeys0 : ∀ k ∈ (freshClient opt).keys, 1 ≤ k ∧ k ≤ 0 := by
    simp [freshClient, Client.keys]
  obtain ⟨h1, h2, h3⟩ := runOps_alloc ops (freshClient opt) 0 hinit hkeys0 (by omega)
  simp only [Nat.zero_add] at h1 h2 h3
  refine ⟨rfl, rfl, h1, ?_, ?_, h3, h2, ?_⟩
  · intro s hs
    rw [h1] at hs
    exact (List.mem_range'_1.mp hs).1
  · rw [h1]
    exact List.pairwise_lt_range' 1 _
  · intro hlt k hk
    rw [h2, Nat.mod_eq_of_lt hlt]
    have := h3 k hk
    omega

/-- Witness for C1: three registrations with a removal in between return
1, 2, 3. -/
theorem registerCall_allocates_in_order_witness :
    (runOps (freshClient DefaultOption)
      [.registerCall 0, .registerCall 1, .removeCall 1, .registerCall 2]).2 = [1, 2, 3] :=
  (registerCall_allocates_in_order DefaultOption none (freshClient DefaultOption) rfl
    [.registerCall 0, .registerCall 1, .removeCall 1, .registerCall 2] (by decide)).2.2.1.trans
    (by decide)

/-- Counterexample to C1 as stated: on the client that `NewClient` builds,
after `2 ^ 64 - 1` successful registrations (fewer than `2 ^ 64`) the counter
has wrapped to 0 while `2 ^ 64 - 1` is a key of the ledger, so that key is
not smaller than the counter. -/
theorem registerCall_counter_wraps :
    NewClient DefaultOption none = (some (freshClient DefaultOption), none) ∧
    (runOps (freshClient DefaultOption)
      (List.replicate (2 ^ 64 - 1) (Op.registerCall 0))).2.length < U64 ∧
    (runOps (freshClient DefaultOption)
      (List.replicate (2 ^ 64 - 1) (Op.registerCall 0))).1.seq = 0 ∧
    2 ^ 64 - 1 ∈ (runOps (freshClient DefaultOption)
      (List.replicate (2 ^ 64 - 1) (Op.registerCall 0))).1.keys ∧
    ¬ ∀ k ∈ (runOps (freshClient DefaultOption)
        (List.replicate (2 ^ 64 - 1) (Op.registerCall 0))).1.keys,
        k < (runOps (freshClient DefaultOption)
          (List.replicate (2 ^ 64 - 1) (Op.registerCall 0))).1.seq := by
  obtain ⟨h1, h2, h3⟩ := runOps_replicate_register 0 (2 ^ 64 - 1) (freshClient DefaultOption)
    rfl rfl (by decide)
  have hseq : ((freshClient DefaultOption).seq + (2 ^ 64 - 1)) % U64 = 0 := by decide
  have hkey : ((freshClient DefaultOption).seq + (2 ^ 64 - 1 - 1)) % U64 = 2 ^ 64 - 1 := by decide
  rw [hseq] at h2
  have h3 := h3 (by decide)
  rw [hkey] at h3
  refine ⟨rfl, by rw [h1]; decide, h2, h3, ?_⟩
  intro hall
  have := hall _ h3
  rw [h2] at this
  exact Nat.not_lt_zero _ this

/-! ### `fmt.Errorf` on sample formats -/

/-- The model of `fmt.Errorf` without operands on sample formats: plain
text is kept, `%%` prints one `%`, and a verb without operand prints the
marks of Go's `fmt`. -/
theorem Errorf_samples :
    Errorf "divide by zero" = "divide by zero" ∧
    Errorf "100%" = "100%!(NOVERB)" ∧
    Errorf "50%% off" = "50% off" ∧
    Errorf "rate 5%d" = "rate 5%!d(MISSING)" ∧
    Errorf "%[1]d" = "%!d(BADINDEX)" ∧
    Errorf "%*d" = "%!(BADWIDTH)%!d(MISSING)" ∧
    Errorf "%.*d|" = "%!(BADPREC)%!d(MISSING)|" := by
  decide

/-- A format without `%` is printed unchanged. -/
theorem doPrintf_plain (s : List Char) (fuel : Nat) (h : '%' ∉ s) (hf : s.length ≤ fuel) :
    doPrintf fuel s = s := by
  induction s generalizing fuel with
  | nil => cases fuel <;> rfl
  | cons c cs ih =>
    cases fuel with
    | zero => simp at hf
    | succ fuel =>
      simp only [List.mem_cons, not_or] at h
      have hc : (c != '%') = true := by
        have : ¬ c = '%' := fun hcs => h.1 hcs.symm
        simpa using this
      simp only [List.length_cons, Nat.add_le_add_iff_right] at hf
      simp [doPrintf, hc, ih fuel h.2 hf]

/-! ### Completion counts -/

theorem lookup_mem (l : List (Nat × Ptr)) (k : Nat) (p : Ptr) (h : l.lookup k = some p) :
    (k, p) ∈ l := by
  induction l with
  | nil => simp at h
  | cons e rest ih =>
    obtain ⟨k1, p1⟩ := e
    by_cases hk : k = k1
    · subst hk
      simp [List.lookup] at h
      simp [h]
    · have hne : (k == k1) = false := by simpa using hk
      simp only [List.lookup, hne] at h
      exact List.mem_cons_of_mem _ (ih h)

theorem done_dones (c : Client) (p q : Ptr) :
    (c.done p).dones q = c.dones q + (if q = p then 1 else 0) := by
  by_cases h : q = p
  · subst h; simp [Client.done, Client.dones]
  · simp [Client.done, Client.dones, store_mem_ne _ _ _ _ h, h]

theorem setError_dones (c : Client) (p q : Ptr) (err : String) :
    (c.setError p err).dones q = c.dones q := by
  by_cases h : q = p
  · subst h; simp [Client.setError, Client.dones]
  · simp [Client.setError, Client.dones, store_mem_ne _ _ _ _ h]

theorem terminateLoop_dones (err : String) (l : List (Nat × Ptr)) (c : Client) (q : Ptr) :
    (c.terminateLoop err l).dones q = c.dones q + (l.map Prod.snd).count q := by
  induction l generalizing c with
  | nil => simp [Client.terminateLoop]
  | cons e rest ih =>
    obtain ⟨k, p⟩ := e
    simp only [Client.terminateLoop, List.map_cons, List.count_cons]
    rw [ih, done_dones, setError_dones]
    by_cases h : q = p
    · subst h; simp; omega
    · have h2 : ¬ p = q := fun h3 => h h3.symm
      simp [h, h2]

theorem terminateCalls_dones (c : Client) (err : String) (q : Ptr) :
    (c.terminateCalls err).dones q = c.dones q + (c.pending.map Prod.snd).count q := by
  simp only [Client.terminateCalls]
  rw [terminateLoop_dones]
  rfl

theorem sendEncoded_fail_effect (c : Client) (seq : Nat) (err : String) :
    RemovesAndCompletes c (c.sendEncoded seq (some err)) seq := by
  cases hl : c.pending.lookup seq with
  | none =>
    simp only [Client.sendEncoded, Client.removeCall, hl]
    exact ⟨rfl, rfl, rfl, rfl, by simp [Client.dones, hl]⟩
  | some p =>
    simp only [Client.sendEncoded, Client.removeCall, hl]
    refine ⟨rfl, rfl, rfl, rfl, ?_⟩
    intro q
    rw [done_dones, setError_dones, hl]
    by_cases h : q = p
    · subst h; simp [Client.dones]
    · have h2 : ¬ p = q := fun h3 => h h3.symm
      simp [h, h2, Client.dones]

theorem receiveFrame_effect (c : Client) (f : Frame) :
    RemovesAndCompletes c (c.receiveFrame f).1 f.h.Seq := by
  cases hl : c.pending.lookup f.h.Seq with
  | none =>
    simp only [Client.receiveFrame, Client.removeCall, hl]
    exact ⟨rfl, rfl, rfl, rfl, by simp [Client.dones, hl]⟩
  | some p =>
    have key : ∀ c2 : Client, c2.pending = mapDelete c.pending f.h.Seq → c2.nextPtr = c.nextPtr →
        c2.shutdown = c.shutdown → c2.closing = c.closing → (∀ q, c2.dones q = c.dones q) →
        RemovesAndCompletes c (c2.done p) f.h.Seq := by
      intro c2 h1 h2 h3 h4 h5
      refine ⟨by simpa [Client.done] using h1, by simpa [Client.done] using h2,
        by simpa [Client.done] using h3, by simpa [Client.done] using h4, ?_⟩
      intro q
      rw [done_dones, h5, hl]
      by_cases h : q = p
      · subst h; simp
      · have h2 : ¬ p = q := fun h3 => h h3.symm
        simp [h, h2]
    simp only [Client.receiveFrame, Client.removeCall, hl]
    by_cases herr : f.h.Error = ""
    · simp only [herr, ne_eq, not_true_eq_false, if_false]
      cases hd : f.decoded with
      | ok v =>
        refine key _ rfl rfl rfl rfl ?_
        intro q
        by_cases h : q = p
        · subst h; simp [Client.dones]
        · simp [Client.dones, store_mem_ne _ _ _ _ h]
      | error e2 =>
        exact key _ rfl rfl rfl rfl (fun q => setError_dones _ _ _ _)
    · simp only [ne_eq, herr, not_false_eq_true, if_true]
      exact key _ rfl rfl rfl rfl (fun q => setError_dones _ _ _ _)

theorem mapDelete_sublist (m : List (Nat × Ptr)) (k : Nat) : (mapDelete m k).Sublist m :=
  List.filter_sublist m

theorem nodup_snd_unique (l : List (Nat × Ptr)) (h : (l.map Prod.snd).Nodup) (k1 k2 : Nat) (p : Ptr)
    (h1 : (k1, p) ∈ l) (h2 : (k2, p) ∈ l) : k1 = k2 := by
  have := List.inj_on_of_nodup_map h h1 h2 rfl
  exact congrArg Prod.fst this

/-- The invariant survives a removal from the ledger that completes the
call it found, as long as `receive` has not returned. -/
theorem Inv_removesAndCompletes (e : Engine) (c1 : Client) (k : Nat) (s1 : Option (Ptr × Nat))
    (l1 : Loop) (hinv : e.Inv) (hloop : e.loop ≠ .ended) (hl1 : l1 ≠ .ended)
    (h : RemovesAndCompletes e.client c1 k) :
    Engine.Inv { client := c1, sending := s1, loop := l1 } := by
  have hfound : ∀ q, e.client.pending.lookup k = some q → (k, q) ∈ e.client.pending :=
    fun q hq => lookup_mem _ _ _ hq
  refine ⟨?_, ?_, ?_, ?_, ?_, ?_⟩
  · intro k1 p hp
    simp only [h.pending, mem_mapDelete] at hp
    simpa [h.nextPtr] using hinv.alloc k1 p hp.1
  · simp only [h.pending]
    exact hinv.nodup.sublist ((mapDelete_sublist _ _).map _)
  · intro p
    simp only [h.dones]
    by_cases hl : e.client.pending.lookup k = some p
    · have := hinv.undone hloop k p (hfound p hl)
      simp [hl, this]
    · simpa [hl] using hinv.atMost p
  · intro p hp
    simp only [h.nextPtr] at hp
    simp only [h.dones]
    have hne : ¬ e.client.pending.lookup k = some p := by
      intro hl
      exact absurd (hinv.alloc k p (hfound p hl)) (Nat.not_lt.mpr hp)
    simpa [hne] using hinv.fresh p hp
  · intro _ k1 p hp
    simp only [h.pending, mem_mapDelete] at hp
    simp only [h.dones]
    have hne : ¬ e.client.pending.lookup k = some p := by
      intro hl
      exact hp.2 (nodup_snd_unique _ hinv.nodup k1 k p hp.1 (hfound p hl))
    simpa [hne] using hinv.undone hloop k1 p hp.1
  · intro hcontra
    exact absurd hcontra hl1

/-- The invariant survives a step that only removes entries from the ledger
and completes no call. -/
theorem Inv_removes (e : Engine) (c1 : Client) (s1 : Option (Ptr × Nat)) (l1 : Loop)
    (hinv : e.Inv) (hsub : c1.pending.Sublist e.client.pending)
    (hn : c1.nextPtr = e.client.nextPtr) (hs : c1.shutdown = e.client.shutdown)
    (hd : ∀ q, c1.dones q = e.client.dones q)
    (hl : l1 = .ended ↔ e.loop = .ended) (hs1 : l1 = .ended → s1 = none) :
    Engine.Inv { client := c1, sending := s1, loop := l1 } := by
  refine ⟨?_, ?_, ?_, ?_, ?_, ?_⟩
  · intro k p hp
    simpa [hn] using hinv.alloc k p (hsub.subset hp)
  · exact hinv.nodup.sublist (hsub.map _)
  · intro p
    simpa [hd] using hinv.atMost p
  · intro p hp
    simp only [hn] at hp
    simpa [hd] using hinv.fresh p hp
  · intro hne k p hp
    have hne1 : e.loop ≠ .ended := fun h => hne (hl.mpr h)
    simpa [hd] using hinv.undone hne1 k p (hsub.subset hp)
  · intro hend
    exact ⟨by simpa [hs] using (hinv.ended (hl.mp hend)).1, hs1 hend⟩

/-- What the first half of `send` does to a freshly allocated call. -/
theorem newCall_sendRegister_effect (c : Client) (sm : String) :
    ((c.newCall sm).1.sendRegister (c.newCall sm).2).1.nextPtr = c.nextPtr + 1 ∧
    ((c.newCall sm).1.sendRegister (c.newCall sm).2).1.shutdown = c.shutdown ∧
    ((c.newCall sm).1.sendRegister (c.newCall sm).2).1.closing = c.closing ∧
    (∀ q, q ≠ c.nextPtr →
      ((c.newCall sm).1.sendRegister (c.newCall sm).2).1.dones q = c.dones q) ∧
    ((c.IsAvailable = false ∧ ((c.newCall sm).1.sendRegister (c.newCall sm).2).2 = none ∧
        ((c.newCall sm).1.sendRegister (c.newCall sm).2).1.pending = c.pending ∧
        ((c.newCall sm).1.sendRegister (c.newCall sm).2).1.dones c.nextPtr = 1) ∨
     (c.IsAvailable = true ∧ ((c.newCall sm).1.sendRegister (c.newCall sm).2).2 = some c.seq ∧
        ((c.newCall sm).1.sendRegister (c.newCall sm).2).1.pending
          = mapSet c.pending c.seq c.nextPtr ∧
        ((c.newCall sm).1.sendRegister (c.newCall sm).2).1.dones c.nextPtr = 0)) := by
  by_cases hav : (c.closing || c.shutdown) = true
  · have hav2 : c.IsAvailable = false := by
      simp only [Bool.or_eq_true] at hav
      rcases hav with h | h <;> simp [Client.IsAvailable, h]
    have hreg : (c.newCall sm).1.sendRegister (c.newCall sm).2 =
        ((((c.newCall sm).1.setError c.nextPtr ErrShutdown).done c.nextPtr), none) := by
      simp only [Client.newCall, Client.sendRegister, Client.registerCall, store_closing,
        store_shutdown, hav, if_true]
    rw [hreg]
    refine ⟨rfl, rfl, rfl, ?_, Or.inl ⟨hav2, rfl, rfl, ?_⟩⟩
    · intro q hq
      rw [done_dones, setError_dones]
      simp [hq, Client.dones, Client.newCall, Client.store, Function.update]
    · rw [done_dones, setError_dones]
      simp [Client.dones, Client.newCall, Client.store]
  · have hav2 : c.IsAvailable = true := by
      simp only [Bool.or_eq_true, not_or, Bool.not_eq_true] at hav
      simp [Client.IsAvailable, hav.1, hav.2]
    have hreg : ∃ c1, (c.newCall sm).1.sendRegister (c.newCall sm).2 = (c1, some c.seq) ∧
        c1.nextPtr = c.nextPtr + 1 ∧ c1.shutdown = c.shutdown ∧ c1.closing = c.closing ∧
        c1.pending = mapSet c.pending c.seq c.nextPtr ∧
        c1.mem = Function.update (Function.update c.mem c.nextPtr { ServiceMethod := sm })
          c.nextPtr { ServiceMethod := sm, Seq := c.seq } := by
      refine ⟨
        { opt := c.opt, header := { ServiceMethod := sm, Seq := c.seq, Error := "" },
          seq := (c.seq + 1) % U64, pending := mapSet c.pending c.seq c.nextPtr,
          closing := c.closing, shutdown := c.shutdown,
          mem := Function.update (Function.update c.mem c.nextPtr { ServiceMethod := sm })
            c.nextPtr { ServiceMethod := sm, Seq := c.seq },
          nextPtr := c.nextPtr + 1, ccClosed := c.ccClosed }, ?_, rfl, rfl, rfl, rfl, rfl⟩
      simp only [Client.newCall, Client.sendRegister, Client.registerCall, store_closing,
        store_shutdown, hav, Bool.false_eq_true, if_false]
      simp [Client.store]
    obtain ⟨c1, h1, h2, h3, h4, h5, h6⟩ := hreg
    rw [h1]
    refine ⟨h2, h3, h4, ?_, Or.inr ⟨hav2, rfl, h5, ?_⟩⟩
    · intro q hq
      simp [hq, Client.dones, h6, Function.update]
    · simp [Client.dones, h6]

theorem Inv_init (opt : Opt) : (Engine.init (freshClient opt)).Inv := by
  refine ⟨?_, ?_, ?_, ?_, ?_, ?_⟩ <;> simp [Engine.init, freshClient, Client.dones]

theorem step_Go (e : Engine) (sm : String) (hs : e.sending = none) :
    e.step (.Go sm) = some { e with
      client := ((e.client.newCall sm).1.sendRegister (e.client.newCall sm).2).1,
      sending := (((e.client.newCall sm).1.sendRegister (e.client.newCall sm).2).2).map
        (fun seq => (e.client.nextPtr, seq)) } := by
  simp only [Engine.step, hs]
  rcases hres : (e.client.newCall sm).1.sendRegister (e.client.newCall sm).2 with ⟨c1, _ | seq⟩
  · simp [hs]
  · simp [Client.newCall]

theorem Inv_step_Go (e e1 : Engine) (sm : String) (hinv : e.Inv)
    (h : e.step (.Go sm) = some e1) : e1.Inv := by
  cases hs : e.sending with
  | some x => simp [Engine.step, hs] at h
  | none =>
    rw [step_Go e sm hs] at h
    obtain ⟨hn, hsh, _, hd, hcase⟩ := newCall_sendRegister_effect e.client sm
    have he1 := Option.some.inj h
    subst he1
    have hlt : ∀ k p, (k, p) ∈ e.client.pending → p ≠ e.client.nextPtr := by
      intro k p hp
      exact Nat.ne_of_lt (hinv.alloc k p hp)
    rcases hcase with ⟨hav, _, hp, hone⟩ | ⟨hav, hres, hp, hzero⟩
    · refine ⟨?_, ?_, ?_, ?_, ?_, ?_⟩
      · intro k p hmem
        simp only [hp] at hmem
        simp only [hn]
        exact Nat.lt_succ_of_lt (hinv.alloc k p hmem)
      · simp only [hp]; exact hinv.nodup
      · intro p
        by_cases hpn : p = e.client.nextPtr
        · subst hpn; simp [hone]
        · simp only [hd p hpn]; exact hinv.atMost p
      · intro p hge
        simp only [hn] at hge
        have hpn : p ≠ e.client.nextPtr := Nat.ne_of_gt (Nat.lt_of_succ_le hge)
        simp only [hd p hpn]
        exact hinv.fresh p (Nat.le_of_succ_le hge)
      · intro hloop k p hmem
        simp only [hp] at hmem
        simp only [hd p (hlt k p hmem)]
        exact hinv.undone hloop k p hmem
      · intro hend
        refine ⟨by simpa [hsh] using (hinv.ended hend).1, ?_⟩
        have : ((e.client.newCall sm).1.sendRegister (e.client.newCall sm).2).2 = none := by
          assumption
        simp [this]
    · refine ⟨?_, ?_, ?_, ?_, ?_, ?_⟩
      · intro k p hmem
        simp only [hp, mem_mapSet] at hmem
        simp only [hn]
        rcases hmem with heq | ⟨hmem, _⟩
        · simp only [Prod.mk.injEq] at heq
          rw [heq.2]; exact Nat.lt_succ_self _
        · exact Nat.lt_succ_of_lt (hinv.alloc k p hmem)
      · simp only [hp, mapSet, List.map_cons, List.nodup_cons]
        refine ⟨?_, hinv.nodup.sublist ((List.filter_sublist _).map _)⟩
        intro hmem
        simp only [List.mem_map, List.mem_filter] at hmem
        obtain ⟨x, ⟨hx, _⟩, hx2⟩ := hmem
        exact hlt x.1 x.2 hx hx2
      · intro p
        by_cases hpn : p = e.client.nextPtr
        · subst hpn; simp [hzero]
        · simp only [hd p hpn]; exact hinv.atMost p
      · intro p hge
        simp only [hn] at hge
        have hpn : p ≠ e.client.nextPtr := Nat.ne_of_gt (Nat.lt_of_succ_le hge)
        simp only [hd p hpn]
        exact hinv.fresh p (Nat.le_of_succ_le hge)
      · intro hloop k p hmem
        simp only [hp, mem_mapSet] at hmem
        rcases hmem with heq | ⟨hmem, _⟩
        · simp only [Prod.mk.injEq] at heq
          rw [heq.2]; exact hzero
        · simp only [hd p (hlt k p hmem)]
          exact hinv.undone hloop k p hmem
      · intro hend
        have hshut := (hinv.ended hend).1
        simp [Client.IsAvailable, hshut] at hav

theorem step_sendEncoded (e e1 : Engine) (ev : Event) (encodeErr : Option String)
    (hev : ev = .encodeOk ∧ encodeErr = none ∨ ∃ err, ev = .encodeFail err ∧ encodeErr = some err)
    (h : e.step ev = some e1) :
    ∃ call seq, e.sending = some (call, seq) ∧
      e1 = { e with client := e.client.sendEncoded seq encodeErr, sending := none } := by
  cases hs : e.sending with
  | none => rcases hev with ⟨rfl, _⟩ | ⟨err, rfl, _⟩ <;> simp [Engine.step, hs] at h
  | some x =>
    obtain ⟨call, seq⟩ := x
    refine ⟨call, seq, rfl, ?_⟩
    rcases hev with ⟨rfl, rfl⟩ | ⟨err, rfl, rfl⟩ <;>
      · simp only [Engine.step, hs, Option.some.injEq] at h
        exact h.symm

theorem Inv_step (e e1 : Engine) (ev : Event) (hinv : e.Inv) (h : e.step ev = some e1) :
    e1.Inv := by
  cases ev with
  | Go sm => exact Inv_step_Go e e1 sm hinv h
  | encodeOk =>
    obtain ⟨call, seq, hs, rfl⟩ := step_sendEncoded e e1 _ none (Or.inl ⟨rfl, rfl⟩) h
    exact Inv_removes e _ none e.loop hinv (List.Sublist.refl _) rfl rfl (fun _ => rfl)
      Iff.rfl (fun _ => rfl)
  | encodeFail err =>
    obtain ⟨call, seq, hs, rfl⟩ := step_sendEncoded e e1 _ (some err) (Or.inr ⟨err, rfl, rfl⟩) h
    have hloop : e.loop ≠ .ended := by
      intro hend
      have := (hinv.ended hend).2
      simp [hs] at this
    exact Inv_removesAndCompletes e _ seq none e.loop hinv hloop hloop
      (sendEncoded_fail_effect e.client seq err)
  | frame f =>
    cases hl : e.loop with
    | reading =>
      have hloop : e.loop ≠ .ended := by simp [hl]
      simp only [Engine.step, hl] at h
      rcases hres : e.client.receiveFrame f with ⟨c, _ | err⟩
      · simp only [hres, Option.some.injEq] at h
        subst h
        exact Inv_removesAndCompletes e c f.h.Seq e.sending .reading hinv hloop (by simp)
          (by simpa [hres] using receiveFrame_effect e.client f)
      · simp only [hres, Option.some.injEq] at h
        subst h
        exact Inv_removesAndCompletes e c f.h.Seq e.sending (.failed err) hinv hloop (by simp)
          (by simpa [hres] using receiveFrame_effect e.client f)
    | failed err => simp [Engine.step, hl] at h
    | ended => simp [Engine.step, hl] at h
  | headerFail err =>
    cases hl : e.loop with
    | reading =>
      simp only [Engine.step, hl, Option.some.injEq] at h
      subst h
      exact Inv_removes e e.client e.sending (.failed err) hinv (List.Sublist.refl _) rfl rfl
        (fun _ => rfl) (by simp [hl]) (by simp)
    | failed err => simp [Engine.step, hl] at h
    | ended => simp [Engine.step, hl] at h
  | terminate =>
    cases hl : e.loop with
    | reading => simp [Engine.step, hl] at h
    | ended => simp [Engine.step, hl] at h
    | failed err =>
      cases hs : e.sending with
      | some x => simp [Engine.step, hl, hs] at h
      | none =>
        simp only [Engine.step, hl, hs, Option.some.injEq] at h
        subst h
        have hloop : e.loop ≠ .ended := by simp [hl]
        obtain ⟨_, hp, _, hsh, hn, _, _⟩ := terminateCalls_fields e.client err
        have hcount : ∀ q, (e.client.pending.map Prod.snd).count q ≤ 1 :=
          fun q => List.nodup_iff_count_le_one.mp hinv.nodup q
        refine ⟨?_, ?_, ?_, ?_, ?_, ?_⟩
        · intro k p hmem
          simp only [hp] at hmem
          simp only [hn]
          exact hinv.alloc k p hmem
        · simp only [hp]; exact hinv.nodup
        · intro p
          simp only [terminateCalls_dones]
          by_cases hmem : p ∈ e.client.pending.map Prod.snd
          · obtain ⟨x, hx, rfl⟩ := List.mem_map.mp hmem
            have := hinv.undone hloop x.1 x.2 hx
            have := hcount x.2
            omega
          · have := hinv.atMost p
            simp [List.count_eq_zero_of_not_mem hmem, this]
        · intro p hge
          simp only [hn] at hge
          simp only [terminateCalls_dones]
          have hmem : p ∉ e.client.pending.map Prod.snd := by
            intro hmem
            obtain ⟨x, hx, rfl⟩ := List.mem_map.mp hmem
            exact absurd (hinv.alloc x.1 x.2 hx) (Nat.not_lt.mpr hge)
          simp [List.count_eq_zero_of_not_mem hmem, hinv.fresh p hge]
        · intro hcontra
          exact absurd rfl hcontra
        · intro _
          exact ⟨hsh, rfl⟩
  | cancel call =>
    by_cases hg : call < e.client.nextPtr ∧ (e.sending.map Prod.fst) ≠ some call
    · simp only [Engine.step] at h
      rw [if_pos hg] at h
      have h := Option.some.inj h
      subst h
      exact Inv_removes e _ e.sending e.loop hinv (mapDelete_sublist _ _) rfl rfl (fun _ => rfl)
        Iff.rfl (fun hend => (hinv.ended hend).2)
    · simp only [Engine.step] at h
      rw [if_neg hg] at h
      simp at h
  | Close ccErr =>
    simp only [Engine.step, Option.some.injEq] at h
    subst h
    have hfields : (e.client.Close ccErr).1.pending = e.client.pending ∧
        (e.client.Close ccErr).1.nextPtr = e.client.nextPtr ∧
        (e.client.Close ccErr).1.shutdown = e.client.shutdown ∧
        ∀ q, (e.client.Close ccErr).1.dones q = e.client.dones q := by
      by_cases hc : e.client.closing = true <;> simp [Client.Close, hc, Client.dones]
    exact Inv_removes e _ e.sending e.loop hinv (by rw [hfields.1]) hfields.2.1 hfields.2.2.1
      hfields.2.2.2 Iff.rfl (fun hend => (hinv.ended hend).2)

/-- One step never lowers a completion count, and it completes each call
that it brings to one of the four completions. -/
theorem step_dones (e e1 : Engine) (ev : Event) (hinv : e.Inv) (h : e.step ev = some e1) :
    (∀ p, e.client.dones p ≤ e1.client.dones p) ∧
    (∀ p ∈ e.completedBy ev, e1.client.dones p = 1) := by
  cases ev with
  | Go sm =>
    cases hs : e.sending with
    | some x => simp [Engine.step, hs] at h
    | none =>
      rw [step_Go e sm hs] at h
      obtain ⟨_, _, _, hd, hcase⟩ := newCall_sendRegister_effect e.client sm
      have he1 := Option.some.inj h
      subst he1
      refine ⟨?_, ?_⟩
      · intro p
        by_cases hpn : p = e.client.nextPtr
        · subst hpn
          simp [hinv.fresh _ (Nat.le_refl _)]
        · simp [hd p hpn]
      · intro p hp
        rcases hcase with ⟨hav, _, _, hone⟩ | ⟨hav, _, _, _⟩
        · simp only [Engine.completedBy, hav, Bool.false_eq_true, if_false,
            List.mem_singleton] at hp
          subst hp
          exact hone
        · simp [Engine.completedBy, hav] at hp
  | encodeOk =>
    obtain ⟨call, seq, hs, rfl⟩ := step_sendEncoded e e1 _ none (Or.inl ⟨rfl, rfl⟩) h
    exact ⟨fun p => Nat.le_refl _, by simp [Engine.completedBy]⟩
  | encodeFail err =>
    obtain ⟨call, seq, hs, rfl⟩ := step_sendEncoded e e1 _ (some err) (Or.inr ⟨err, rfl, rfl⟩) h
    have hloop : e.loop ≠ .ended := by
      intro hend
      have := (hinv.ended hend).2
      simp [hs] at this
    have heff := sendEncoded_fail_effect e.client seq err
    refine ⟨fun p => by simp [heff.dones p], ?_⟩
    intro p hp
    simp only [Engine.completedBy, hs, Option.mem_toList, Option.mem_def] at hp
    have := hinv.undone hloop seq p (lookup_mem _ _ _ hp)
    simp [heff.dones p, hp, this]
  | frame f =>
    cases hl : e.loop with
    | reading =>
      have hloop : e.loop ≠ .ended := by simp [hl]
      have heff := receiveFrame_effect e.client f
      have hc : e1.client = (e.client.receiveFrame f).1 := by
        simp only [Engine.step, hl] at h
        rcases hres : e.client.receiveFrame f with ⟨c, _ | err⟩ <;>
          · simp only [hres, Option.some.injEq] at h
            subst h
            rfl
      rw [hc]
      refine ⟨fun p => by simp [heff.dones p], ?_⟩
      intro p hp
      simp only [Engine.completedBy, Option.mem_toList, Option.mem_def] at hp
      have := hinv.undone hloop f.h.Seq p (lookup_mem _ _ _ hp)
      simp [heff.dones p, hp, this]
    | failed err => simp [Engine.step, hl] at h
    | ended => simp [Engine.step, hl] at h
  | headerFail err =>
    cases hl : e.loop with
    | reading =>
      simp only [Engine.step, hl, Option.some.injEq] at h
      subst h
      exact ⟨fun p => Nat.le_refl _, by simp [Engine.completedBy]⟩
    | failed err => simp [Engine.step, hl] at h
    | ended => simp [Engine.step, hl] at h
  | terminate =>
    cases hl : e.loop with
    | reading => simp [Engine.step, hl] at h
    | ended => simp [Engine.step, hl] at h
    | failed err =>
      cases hs : e.sending with
      | some x => simp [Engine.step, hl, hs] at h
      | none =>
        simp only [Engine.step, hl, hs, Option.some.injEq] at h
        subst h
        have hloop : e.loop ≠ .ended := by simp [hl]
        refine ⟨fun p => by simp [terminateCalls_dones], ?_⟩
        intro p hp
        simp only [Engine.completedBy] at hp
        obtain ⟨x, hx, hxp⟩ := List.mem_map.mp hp
        have h0 := hinv.undone hloop x.1 x.2 hx
        rw [hxp] at h0
        simp only [terminateCalls_dones, h0, Nat.zero_add]
        exact List.count_eq_one_of_mem hinv.nodup hp
  | cancel call =>
    by_cases hg : call < e.client.nextPtr ∧ (e.sending.map Prod.fst) ≠ some call
    · simp only [Engine.step] at h
      rw [if_pos hg] at h
      have h := Option.some.inj h
      subst h
      exact ⟨fun p => Nat.le_refl _, by simp [Engine.completedBy]⟩
    · simp only [Engine.step] at h
      rw [if_neg hg] at h
      simp at h
  | Close ccErr =>
    simp only [Engine.step, Option.some.injEq] at h
    subst h
    refine ⟨fun p => ?_, by simp [Engine.completedBy]⟩
    by_cases hc : e.client.closing = true <;> simp [Client.Close, hc, Client.dones]

theorem Inv_run (evs : List Event) (e e1 : Engine) (hinv : e.Inv) (h : e.run evs = some e1) :
    e1.Inv := by
  induction evs generalizing e with
  | nil =>
    simp only [Engine.run, Option.some.injEq] at h
    subst h; exact hinv
  | cons ev evs ih =>
    simp only [Engine.run] at h
    cases hstep : e.step ev with
    | none => simp [hstep] at h
    | some e2 =>
      simp only [hstep] at h
      exact ih e2 (Inv_step e e2 ev hinv hstep) h

theorem run_dones_mono (evs : List Event) (e e1 : Engine) (hinv : e.Inv)
    (h : e.run evs = some e1) (p : Ptr) : e.client.dones p ≤ e1.client.dones p := by
  induction evs generalizing e with
  | nil =>
    simp only [Engine.run, Option.some.injEq] at h
    subst h; exact Nat.le_refl _
  | cons ev evs ih =>
    simp only [Engine.run] at h
    cases hstep : e.step ev with
    | none => simp [hstep] at h
    | some e2 =>
      simp only [hstep] at h
      exact Nat.le_trans ((step_dones e e2 ev hinv hstep).1 p)
        (ih e2 (Inv_step e e2 ev hinv hstep) h)

/-- C2: over every sequence of engine steps from a client freshly built by
`NewClient` (the first
half of `send`, the two outcomes of `Encode`, a response frame handled by
`receive`, a failed header read, the `terminateCalls` that ends `receive`,
cancellation through `removeCall`, `Close`), `done()` has run at most once on
every `Call` in every state reached; and when a step matches a call with a
response frame, finds it in the ledger after a write failure, rejects it at
registration or finds it pending at teardown, then `done()` has run exactly
once on that call after the step and in every later state. -/
theorem done_fires_exactly_once (opt : Opt) (encodeErr : Option String) (client : Client)
    (hnew : NewClient opt encodeErr = (some client, none))
    (before after : List Event) (ev : Event) (e e1 e2 : Engine)
    (h0 : (Engine.init client).run before = some e) (h1 : e.step ev = some e1)
    (h2 : e1.run after = some e2) :
    (∀ p, (e.client.mem p).doneCount ≤ 1) ∧
    (∀ p, (e2.client.mem p).doneCount ≤ 1) ∧
    (∀ p ∈ e.completedBy ev, (e1.client.mem p).doneCount = 1 ∧ (e2.client.mem p).doneCount = 1) := by
  have hc := NewClient_success opt encodeErr client hnew
  subst hc
  have hinv := Inv_run before _ e (Inv_init opt) h0
  have hinv1 := Inv_step e e1 ev hinv h1
  have hinv2 := Inv_run after e1 e2 hinv1 h2
  refine ⟨hinv.atMost, hinv2.atMost, ?_⟩
  intro p hp
  have hone : e1.client.dones p = 1 := (step_dones e e1 ev hinv h1).2 p hp
  refine ⟨hone, ?_⟩
  have hle := run_dones_mono after e1 e2 hinv1 h2 p
  have hup := hinv2.atMost p
  simp only [Client.dones] at hone hle hup
  omega

/-- Witness for C2: a call is sent and answered, a second one fails to
write, a third one is pending when the header read fails and `receive`
tears down, a fourth one is rejected afterwards; the step singled out is the
teardown, and the call pending at it ends with exactly one completion. -/
theorem done_fires_exactly_once_witness :
    2 ∈ scenarioBefore.completedBy .terminate ∧
    (scenarioAfter.client.mem 2).doneCount = 1 :=
  ⟨by decide,
    ((done_fires_exactly_once DefaultOption none (freshClient DefaultOption) rfl
      scenarioEvents [.Go "Foo.Sum", .cancel 2] .terminate
      scenarioBefore scenarioTeardown scenarioAfter rfl rfl rfl).2.2 2 (by decide)).2⟩

/-! ### Teardown -/

theorem setError_error (c : Client) (p q : Ptr) (err : String) :
    ((c.setError p err).mem q).Error = if q = p then some err else (c.mem q).Error := by
  by_cases h : q = p
  · subst h; simp [Client.setError]
  · simp [Client.setError, store_mem_ne _ _ _ _ h, h]

theorem done_error (c : Client) (p q : Ptr) : ((c.done p).mem q).Error = (c.mem q).Error := by
  by_cases h : q = p
  · subst h; simp [Client.done]
  · simp [Client.done, store_mem_ne _ _ _ _ h]

theorem terminateLoop_error (err : String) (l : List (Nat × Ptr)) (c : Client) (q : Ptr) :
    ((c.terminateLoop err l).mem q).Error
      = if q ∈ l.map Prod.snd then some err else (c.mem q).Error := by
  induction l generalizing c with
  | nil => simp [Client.terminateLoop]
  | cons x rest ih =>
    obtain ⟨k, p⟩ := x
    simp only [Client.terminateLoop, List.map_cons, List.mem_cons]
    rw [ih, done_error, setError_error]
    by_cases h1 : q ∈ rest.map Prod.snd
    · simp [h1]
    · by_cases h2 : q = p <;> simp [h1, h2]

/-- C3, as amended: when the read loop ends because reading a header failed
with the error `readErr`, the shutdown flag is set, the ledger keeps its
entries, and every call in the ledger is completed (`done()` runs on it) with
that read error as its `Error`, the same error for all of them. -/
theorem receive_headerFail_completes_pending (c : Client) (readErr : String) (k : Nat) (p : Ptr)
    (hp : (k, p) ∈ c.pending) :
    c.receive readErr [] = c.terminateCalls readErr ∧
    (c.receive readErr []).shutdown = true ∧
    (c.receive readErr []).pending = c.pending ∧
    ((c.receive readErr []).mem p).Error = some readErr ∧
    (c.mem p).doneCount < ((c.receive readErr []).mem p).doneCount := by
  have hmem : p ∈ c.pending.map Prod.snd := List.mem_map.mpr ⟨(k, p), hp, rfl⟩
  obtain ⟨_, hpend, _, hsh, _⟩ := terminateCalls_fields c readErr
  refine ⟨rfl, hsh, hpend, ?_, ?_⟩
  · simp only [Client.receive, Client.terminateCalls]
    rw [terminateLoop_error]
    simp only [hmem, if_true]
  · have := terminateCalls_dones c readErr p
    have hcount : 0 < (c.pending.map Prod.snd).count p := List.count_pos_iff.mpr hmem
    simp only [Client.receive, Client.dones] at this ⊢
    omega

/-- Witness for C3: one pending call, the header read fails with `EOF`. -/
theorem receive_headerFail_completes_pending_witness :
    ((onePending.receive "EOF" []).mem 0).Error = some "EOF" ∧
    (onePending.receive "EOF" []).shutdown = true :=
  ⟨(receive_headerFail_completes_pending onePending "EOF" 1 0 (by decide)).2.2.2.1,
    (receive_headerFail_completes_pending onePending "EOF" 1 0 (by decide)).2.1⟩

/-- Counterexample to C3 as stated: with one call pending and the header
read failing with `EOF`, the call's `Error` is `EOF`, not `ErrShutdown`. -/
theorem receive_headerFail_not_ErrShutdown :
    (1, 0) ∈ onePending.pending ∧
    ((onePending.receive "EOF" []).mem 0).Error = some "EOF" ∧
    ((onePending.receive "EOF" []).mem 0).Error ≠ some ErrShutdown := by
  decide

/-! ### Availability -/

theorem step_flags (e e1 : Engine) (ev : Event) (h : e.step ev = some e1) :
    (e.client.closing = true → e1.client.closing = true) ∧
    (e.client.shutdown = true → e1.client.shutdown = true) := by
  cases ev with
  | Go sm =>
    cases hs : e.sending with
    | some x => simp [Engine.step, hs] at h
    | none =>
      rw [step_Go e sm hs] at h
      obtain ⟨_, hsh, hcl, _, _⟩ := newCall_sendRegister_effect e.client sm
      have he1 := Option.some.inj h
      subst he1
      exact ⟨fun hc => by simpa [hcl] using hc, fun hc => by simpa [hsh] using hc⟩
  | encodeOk =>
    obtain ⟨call, seq, hs, rfl⟩ := step_sendEncoded e e1 _ none (Or.inl ⟨rfl, rfl⟩) h
    exact ⟨id, id⟩
  | encodeFail err =>
    obtain ⟨call, seq, hs, rfl⟩ := step_sendEncoded e e1 _ (some err) (Or.inr ⟨err, rfl, rfl⟩) h
    have heff := sendEncoded_fail_effect e.client seq err
    exact ⟨fun hc => by simpa [heff.closing] using hc, fun hc => by simpa [heff.shutdown] using hc⟩
  | frame f =>
    cases hl : e.loop with
    | reading =>
      have heff := receiveFrame_effect e.client f
      have hc : e1.client = (e.client.receiveFrame f).1 := by
        simp only [Engine.step, hl] at h
        rcases hres : e.client.receiveFrame f with ⟨c, _ | err⟩ <;>
          · simp only [hres, Option.some.injEq] at h
            subst h
            rfl
      rw [hc]
      exact ⟨fun hc => by simpa [heff.closing] using hc,
        fun hc => by simpa [heff.shutdown] using hc⟩
    | failed err => simp [Engine.step, hl] at h
    | ended => simp [Engine.step, hl] at h
  | headerFail err =>
    cases hl : e.loop with
    | reading =>
      simp only [Engine.step, hl, Option.some.injEq] at h
      subst h
      exact ⟨id, id⟩
    | failed err => simp [Engine.step, hl] at h
    | ended => simp [Engine.step, hl] at h
  | terminate =>
    cases hl : e.loop with
    | reading => simp [Engine.step, hl] at h
    | ended => simp [Engine.step, hl] at h
    | failed err =>
      cases hs : e.sending with
      | some x => simp [Engine.step, hl, hs] at h
      | none =>
        simp only [Engine.step, hl, hs, Option.some.injEq] at h
        subst h
        obtain ⟨_, _, hcl, hsh, _⟩ := terminateCalls_fields e.client err
        exact ⟨fun hc => by simpa [hcl] using hc, fun _ => hsh⟩
  | cancel call =>
    by_cases hg : call < e.client.nextPtr ∧ (e.sending.map Prod.fst) ≠ some call
    · simp only [Engine.step] at h
      rw [if_pos hg] at h
      have h := Option.some.inj h
      subst h
      exact ⟨id, id⟩
    · simp only [Engine.step] at h
      rw [if_neg hg] at h
      simp at h
  | Close ccErr =>
    simp only [Engine.step, Option.some.injEq] at h
    subst h
    by_cases hc : e.client.closing = true <;> simp [Client.Close, hc]

theorem run_flags (evs : List Event) (e e1 : Engine) (h : e.run evs = some e1) :
    (e.client.closing = true → e1.client.closing = true) ∧
    (e.client.shutdown = true → e1.client.shutdown = true) := by
  induction evs generalizing e with
  | nil =>
    simp only [Engine.run, Option.some.injEq] at h
    subst h; exact ⟨id, id⟩
  | cons ev evs ih =>
    simp only [Engine.run] at h
    cases hstep : e.step ev with
    | none => simp [hstep] at h
    | some e2 =>
      simp only [hstep] at h
      have h1 := step_flags e e2 ev hstep
      have h2 := ih e2 h
      exact ⟨fun hc => h2.1 (h1.1 hc), fun hc => h2.2 (h1.2 hc)⟩

theorem applyOp_flags (c : Client) (op : Op) :
    (c.closing = true → (applyOp c op).1.closing = true) ∧
    (c.shutdown = true → (applyOp c op).1.shutdown = true) := by
  cases op with
  | registerCall call =>
    by_cases hav : (c.closing || c.shutdown) = true
    · simp [applyOp, Client.registerCall, hav]
    · simp only [Bool.or_eq_true, not_or, Bool.not_eq_true] at hav
      simp [hav.1, hav.2]
  | removeCall seq => exact ⟨id, id⟩
  | terminateCalls err =>
    obtain ⟨_, _, hcl, hsh, _⟩ := terminateCalls_fields c err
    exact ⟨fun hc => by simpa [applyOp, hcl] using hc, fun _ => hsh⟩
  | Close ccErr =>
    by_cases hc : c.closing = true <;> simp [applyOp, Client.Close, hc]

/-- C4: `registerCall` succeeds exactly when `IsAvailable` holds, that is
when neither `closing` nor `shutdown` is set; when one of them is set it
returns `(0, ErrShutdown)` and leaves the client untouched (ledger, counter
and the call's `Seq` included); and no ledger operation and no step of the
engine resets `closing` or `shutdown`, so an unavailable engine stays
unavailable along every run. -/
theorem registerCall_iff_available (c : Client) (call : Ptr) :
    (c.IsAvailable = true ↔ (c.closing = false ∧ c.shutdown = false)) ∧
    ((c.registerCall call).2.2 = none ↔ c.IsAvailable = true) ∧
    (c.IsAvailable = false →
      c.registerCall call = (c, 0, some ErrShutdown) ∧
      (c.registerCall call).1.pending = c.pending ∧ (c.registerCall call).1.seq = c.seq ∧
      ((c.registerCall call).1.mem call).Seq = (c.mem call).Seq) ∧
    (∀ op : Op, (c.closing = true → (applyOp c op).1.closing = true) ∧
      (c.shutdown = true → (applyOp c op).1.shutdown = true)) ∧
    (∀ (e e1 : Engine) (evs : List Event), e.client = c → e.run evs = some e1 →
      (c.closing = true → e1.client.closing = true) ∧
      (c.shutdown = true → e1.client.shutdown = true) ∧
      (c.IsAvailable = false → e1.client.IsAvailable = false)) := by
  have havail : c.IsAvailable = true ↔ (c.closing = false ∧ c.shutdown = false) := by
    cases h1 : c.closing <;> cases h2 : c.shutdown <;> simp [Client.IsAvailable, h1, h2]
  refine ⟨havail, ?_, ?_, applyOp_flags c, ?_⟩
  · cases h1 : c.closing <;> cases h2 : c.shutdown <;>
      simp [Client.registerCall, Client.IsAvailable, h1, h2]
  · intro hav
    have hor : (c.closing || c.shutdown) = true := by
      cases h1 : c.closing <;> cases h2 : c.shutdown <;>
        simp [Client.IsAvailable, h1, h2] at hav ⊢
    simp [Client.registerCall, hor]
  · intro e e1 evs hc hrun
    subst hc
    obtain ⟨h1, h2⟩ := run_flags evs e e1 hrun
    refine ⟨h1, h2, ?_⟩
    intro hav
    cases hcl : e.client.closing <;> cases hsh : e.client.shutdown <;>
      simp [Client.IsAvailable, hcl, hsh] at hav ⊢
    · simp [h2 hsh]
    · simp [h1 hcl]
    · simp [h2 hsh]

/-- Witness for C4: after `Close` on a client with one pending call a
registration is rejected and changes nothing. -/
theorem registerCall_iff_available_witness :
    (onePending.Close none).1.registerCall 1 = ((onePending.Close none).1, 0, some ErrShutdown) :=
  ((registerCall_iff_available (onePending.Close none).1 1).2.2.1 (by decide)).1

/-! ### A body that does not decode -/

theorem receiveFrame_decodeFail (c : Client) (f : Frame) (p : Ptr) (e : String)
    (hp : c.pending.lookup f.h.Seq = some p) (herr : f.h.Error = "") (hdec : f.decoded = .error e) :
    c.receiveFrame f =
      ((({ c with pending := mapDelete c.pending f.h.Seq }).setError p ("reading body " ++ e)).done p,
        some e) := by
  simp [Client.receiveFrame, Client.removeCall, hp, herr, hdec]

/-- C8, as amended: when a response frame matches a pending call, carries no
error text, and its body fails to decode with error `e`, that call is
completed once more with the error `"reading body " ++ e`; the iteration
leaves `err` set, so the loop of `receive` ends without reading a further
header, and `terminateCalls(e)` sets the shutdown flag and completes every
call that is still in the ledger with the error `e`. -/
theorem receive_decodeFail_tears_down (c : Client) (f : Frame) (rest : List Frame)
    (readErr e : String) (p : Ptr)
    (hp : c.pending.lookup f.h.Seq = some p) (herr : f.h.Error = "") (hdec : f.decoded = .error e) :
    (c.receiveFrame f).2 = some e ∧
    ((c.receiveFrame f).1.mem p).Error = some ("reading body " ++ e) ∧
    ((c.receiveFrame f).1.mem p).doneCount = (c.mem p).doneCount + 1 ∧
    c.receive readErr (f :: rest) = (c.receiveFrame f).1.terminateCalls e ∧
    (c.receive readErr (f :: rest)).shutdown = true ∧
    (∀ k q, (k, q) ∈ c.pending → k ≠ f.h.Seq →
      ((c.receive readErr (f :: rest)).mem q).Error = some e ∧
      (c.mem q).doneCount < ((c.receive readErr (f :: rest)).mem q).doneCount) ∧
    (∀ en : Engine, en.client = c → en.loop = .reading →
      (en.step (.frame f)).map (fun e1 => e1.loop) = some (.failed e)) := by
  have hrf := receiveFrame_decodeFail c f p e hp herr hdec
  have hrecv : c.receive readErr (f :: rest) = (c.receiveFrame f).1.terminateCalls e := by
    simp only [Client.receive, hrf]
  have heff := receiveFrame_effect c f
  refine ⟨by rw [hrf], ?_, ?_, hrecv, ?_, ?_, ?_⟩
  · rw [hrf]
    simp only [done_error, setError_error, if_true]
  · have := heff.dones p
    simpa [hp, Client.dones] using this
  · rw [hrecv]
    exact (terminateCalls_fields _ e).2.2.2.1
  · intro k q hq hk
    have hmem : q ∈ (c.receiveFrame f).1.pending.map Prod.snd := by
      rw [heff.pending]
      exact List.mem_map.mpr ⟨(k, q), (mem_mapDelete _ _ _).mpr ⟨hq, hk⟩, rfl⟩
    rw [hrecv]
    refine ⟨?_, ?_⟩
    · simp only [Client.terminateCalls]
      rw [terminateLoop_error]
      simp only [hmem, if_true]
    · have h1 := terminateCalls_dones (c.receiveFrame f).1 e q
      have h2 := heff.dones q
      have hcount : 0 < ((c.receiveFrame f).1.pending.map Prod.snd).count q :=
        List.count_pos_iff.mpr hmem
      simp only [Client.dones] at h1 h2 ⊢
      omega
  · intro en hc hl
    subst hc
    simp [Engine.step, hl, hrf]

/-- Witness for C8: two pending calls, the response to the first does not
decode; the second call is terminated with the decode error. -/
theorem receive_decodeFail_tears_down_witness :
    (twoPending.receive "EOF" [undecodableFrame, replyFrame]).shutdown = true ∧
    ((twoPending.receive "EOF" [undecodableFrame, replyFrame]).mem 1).Error = some "bad body" :=
  ⟨(receive_decodeFail_tears_down twoPending undecodableFrame [replyFrame] "EOF" "bad body" 0
      (by decide) (by decide) rfl).2.2.2.2.1,
    ((receive_decodeFail_tears_down twoPending undecodableFrame [replyFrame] "EOF" "bad body" 0
      (by decide) (by decide) rfl).2.2.2.2.2.1 2 1 (by decide) (by decide)).1⟩

/-- Counterexample to C8 as stated: with calls 1 and 2 pending, a response
to call 1 whose body does not decode completes call 1 with a "reading body"
error and then aborts the engine: the shutdown flag is set, call 2 is
terminated with the decode error, and the well-formed response to call 2
that follows on the connection is never read (its reply is not stored). -/
theorem receive_decodeFail_aborts_engine :
    twoPending.IsAvailable = true ∧
    ((twoPending.receive "EOF" [undecodableFrame, replyFrame]).mem 0).Error
      = some "reading body bad body" ∧
    (twoPending.receive "EOF" [undecodableFrame, replyFrame]).shutdown = true ∧
    ((twoPending.receive "EOF" [undecodableFrame, replyFrame]).mem 1).Error = some "bad body" ∧
    ((twoPending.receive "EOF" [undecodableFrame, replyFrame]).mem 1).doneCount = 1 ∧
    ((twoPending.receive "EOF" [undecodableFrame, replyFrame]).mem 1).Reply = none := by
  decide

/-! ### Name resolution -/

theorem splitChars_ne_nil (sep : Char) (s : List Char) : splitChars sep s ≠ [] := by
  cases s with
  | nil => simp [splitChars]
  | cons c cs =>
    simp only [splitChars]
    split
    · simp
    · split <;> simp

theorem splitChars_no_sep (sep : Char) (s : List Char) (h : sep ∉ s) : splitChars sep s = [s] := by
  induction s with
  | nil => rfl
  | cons c cs ih =>
    simp only [List.mem_cons, not_or] at h
    have hc : ¬ c = sep := fun hcs => h.1 hcs.symm
    simp [splitChars, hc, ih h.2]

theorem splitChars_append_sep (sep : Char) (a b : List Char) (h : sep ∉ a) :
    splitChars sep (a ++ sep :: b) = a :: splitChars sep b := by
  induction a with
  | nil => simp [splitChars]
  | cons c cs ih =>
    simp only [List.mem_cons, not_or] at h
    have hc : ¬ c = sep := fun hcs => h.1 hcs.symm
    simp [splitChars, hc, ih h.2]

theorem splitChars_head (sep : Char) (s : List Char) :
    ∃ rest, splitChars sep s = s.takeWhile (fun c => c != sep) :: rest := by
  induction s with
  | nil => exact ⟨[], rfl⟩
  | cons c cs ih =>
    obtain ⟨rest, hrest⟩ := ih
    by_cases hc : c = sep
    · subst hc
      exact ⟨splitChars c cs, by simp [splitChars, List.takeWhile]⟩
    · have hne : (c != sep) = true := by simpa using hc
      exact ⟨rest, by simp [splitChars, hc, hrest, List.takeWhile, hne]⟩

theorem takeWhile_no_sep (sep : Char) (s : List Char) : sep ∉ s.takeWhile (fun c => c != sep) := by
  intro h
  have := List.mem_takeWhile_imp h
  simp at this

theorem split_at_first_sep (sep : Char) (s : List Char) (h : sep ∈ s) :
    s = s.takeWhile (fun c => c != sep) ++ sep :: (s.dropWhile (fun c => c != sep)).drop 1 := by
  induction s with
  | nil => simp at h
  | cons c cs ih =>
    by_cases hc : c = sep
    · subst hc
      simp [List.takeWhile, List.dropWhile]
    · have hmem : sep ∈ cs := by
        rcases List.mem_cons.mp h with h1 | h1
        · exact absurd h1.symm hc
        · exact h1
      have hne : (c != sep) = true := by simpa using hc
      simp only [List.takeWhile, List.dropWhile, hne, List.cons_append]
      exact congrArg (List.cons c) (ih hmem)

theorem Split_no_dot (name : String) (h : '.' ∉ name.data) : Split name '.' = [name] := by
  simp [Split, splitChars_no_sep '.' name.data h]

theorem Split_dot (name : String) (h : '.' ∈ name.data) :
    ∃ rest, Split name '.' = servicePart name :: methodPart name :: rest := by
  have hsplit := split_at_first_sep '.' name.data h
  obtain ⟨rest, hrest⟩ :=
    splitChars_head '.' ((name.data.dropWhile (fun c => c != '.')).drop 1)
  refine ⟨rest.map String.mk, ?_⟩
  have h1 : splitChars '.' name.data =
      name.data.takeWhile (fun c => c != '.') ::
        splitChars '.' ((name.data.dropWhile (fun c => c != '.')).drop 1) := by
    conv_lhs => rw [hsplit]
    exact splitChars_append_sep '.' _ _ (takeWhile_no_sep '.' name.data)
  simp only [Split, h1, hrest, List.map_cons, servicePart, methodPart, remainderPart]

theorem findService_no_dot (server : Server) (name : String) (h : '.' ∉ name.data) :
    server.findService name =
      (none, none, some ("rpc r: service/method request ill-formed: " ++ name)) := by
  simp [Server.findService, Split_no_dot name h]

theorem findService_dot (server : Server) (name : String) (h : '.' ∈ name.data) :
    server.findService name = server.lookupBoth (servicePart name) (methodPart name) := by
  obtain ⟨rest, hrest⟩ := Split_dot name h
  simp only [Server.findService, hrest, Server.lookupBoth]

/-- C5: `findService` classifies every name by the first failing check. A
name without `.` fails with the ill-formed error; a name with a `.` whose
prefix (the text before the first `.`) is not a registered service fails with
"can't find service" and the prefix; a name whose prefix is registered but
whose method part (the text between the first `.` and the next one, or the
end) is not in the service's method table fails with an error that contains
"can't find method"; and exactly in the remaining case the result is the
service, the entry and a nil error. -/
theorem findService_classifies (server : Server) (name : String) :
    ('.' ∉ name.data → server.findService name =
      (none, none, some ("rpc r: service/method request ill-formed: " ++ name))) ∧
    ('.' ∈ name.data → server.serviceMap.lookup (servicePart name) = none →
      server.findService name =
        (none, none, some ("rpc r: can't find service " ++ servicePart name))) ∧
    (∀ svc, '.' ∈ name.data → server.serviceMap.lookup (servicePart name) = some svc →
      svc.method.lookup (methodPart name) = none →
      server.findService name =
        (some svc, none, some ("rpc r: can't find method " ++ methodPart name)) ∧
      ∃ pre suf, (server.findService name).2.2 = some (pre ++ "can't find method" ++ suf)) ∧
    (∀ svc mtype, '.' ∈ name.data → server.serviceMap.lookup (servicePart name) = some svc →
      svc.method.lookup (methodPart name) = some mtype →
      server.findService name = (some svc, some mtype, none)) ∧
    ((server.findService name).2.2 = none ↔
      ('.' ∈ name.data ∧ ∃ svc mtype, server.serviceMap.lookup (servicePart name) = some svc ∧
        svc.method.lookup (methodPart name) = some mtype ∧
        server.findService name = (some svc, some mtype, none))) := by
  refine ⟨findService_no_dot server name, ?_, ?_, ?_, ?_⟩
  · intro h hl
    simp [findService_dot server name h, Server.lookupBoth, hl]
  · intro svc h hl hm
    have heq : server.findService name =
        (some svc, none, some ("rpc r: can't find method " ++ methodPart name)) := by
      simp [findService_dot server name h, Server.lookupBoth, hl, hm]
    refine ⟨heq, "rpc r: ", " " ++ methodPart name, ?_⟩
    rw [heq]
    simp only [Option.some.injEq]
    apply String.ext
    simp [String.data_append]
  · intro svc mtype h hl hm
    simp [findService_dot server name h, Server.lookupBoth, hl, hm]
  · constructor
    · intro hnil
      by_cases h : '.' ∈ name.data
      · refine ⟨h, ?_⟩
        rw [findService_dot server name h] at hnil ⊢
        cases hl : server.serviceMap.lookup (servicePart name) with
        | none => simp [Server.lookupBoth, hl] at hnil
        | some svc =>
          cases hm : svc.method.lookup (methodPart name) with
          | none => simp [Server.lookupBoth, hl, hm] at hnil
          | some mtype => exact ⟨svc, mtype, rfl, hm, by simp [Server.lookupBoth, hl, hm]⟩
      · simp [findService_no_dot server name h] at hnil
    · rintro ⟨_, svc, mtype, _, _, heq⟩
      rw [heq]

/-- Witness for C5: with `Foo` registered, `Foo.Missing` fails with an
error that contains "can't find method". -/
theorem findService_classifies_witness :
    fooServer.findService "Foo.Missing" =
      ((fooServer.serviceMap.lookup "Foo"), none, some "rpc r: can't find method Missing") :=
  ((findService_classifies fooServer "Foo.Missing").2.2.1
    ((fooServer.serviceMap.lookup "Foo").getD { name := "", method := [] })
    (by decide) (by decide) (by decide)).1.trans (by decide)

theorem takeWhile_append_sep (sep : Char) (a b : List Char) (h : sep ∉ a) :
    (a ++ sep :: b).takeWhile (fun c => c != sep) = a ∧
    (a ++ sep :: b).dropWhile (fun c => c != sep) = sep :: b := by
  induction a with
  | nil => simp [List.takeWhile, List.dropWhile]
  | cons c cs ih =>
    simp only [List.mem_cons, not_or] at h
    have hne : (c != sep) = true := by
      have : ¬ c = sep := fun hcs => h.1 hcs.symm
      simpa using this
    simp [List.takeWhile, List.dropWhile, hne, ih h.2]

theorem takeWhile_no_sep_eq (sep : Char) (a : List Char) (h : sep ∉ a) :
    a.takeWhile (fun c => c != sep) = a := by
  induction a with
  | nil => rfl
  | cons c cs ih =>
    simp only [List.mem_cons, not_or] at h
    have hne : (c != sep) = true := by
      have : ¬ c = sep := fun hcs => h.1 hcs.symm
      simpa using this
    simp [List.takeWhile, hne, ih h.2]

theorem parts_of_dotted (S M x : String) (hS : '.' ∉ S.data) (hM : '.' ∉ M.data) :
    servicePart (S ++ "." ++ M ++ "." ++ x) = S ∧ methodPart (S ++ "." ++ M ++ "." ++ x) = M ∧
    servicePart (S ++ "." ++ M) = S ∧ methodPart (S ++ "." ++ M) = M := by
  have hd3 : (S ++ "." ++ M ++ "." ++ x).data = S.data ++ '.' :: (M.data ++ '.' :: x.data) := by
    simp [String.data_append]
  have hd2 : (S ++ "." ++ M).data = S.data ++ '.' :: M.data := by
    simp [String.data_append]
  obtain ⟨t3, d3⟩ := takeWhile_append_sep '.' S.data (M.data ++ '.' :: x.data) hS
  obtain ⟨t2, d2⟩ := takeWhile_append_sep '.' S.data M.data hS
  obtain ⟨tm, _⟩ := takeWhile_append_sep '.' M.data x.data hM
  refine ⟨?_, ?_, ?_, ?_⟩
  · simp only [servicePart, hd3, t3]
  · simp only [methodPart, servicePart, remainderPart, hd3, d3, List.drop_succ_cons, List.drop_zero,
      tm]
  · simp only [servicePart, hd2, t2]
  · simp only [methodPart, servicePart, remainderPart, hd2, d2, List.drop_succ_cons, List.drop_zero,
      takeWhile_no_sep_eq '.' M.data hM]

/-- C6, as amended: `findService` splits the name at every `.`. For every
name containing a `.`, the service looked up is the text before the first
`.` and the method looked up is the text between the first `.` and the
second one (the whole remainder only when the remainder has no `.`); what
follows a second `.` is ignored, so for `S` and `M` without `.` and any `x`
the name `S.M.x` resolves exactly as `S.M` does: to the entry of `M` with a
nil error when `S` is registered and `M` is in its table. -/
theorem findService_splits_at_every_dot (server : Server) (name S M x : String)
    (hS : '.' ∉ S.data) (hM : '.' ∉ M.data) :
    ('.' ∈ name.data →
      server.findService name = server.lookupBoth (servicePart name) (methodPart name)) ∧
    ('.' ∉ (remainderPart name).data → methodPart name = remainderPart name) ∧
    server.findService (S ++ "." ++ M ++ "." ++ x) = server.lookupBoth S M ∧
    server.findService (S ++ "." ++ M ++ "." ++ x) = server.findService (S ++ "." ++ M) ∧
    (∀ svc mtype, server.serviceMap.lookup S = some svc → svc.method.lookup M = some mtype →
      server.findService (S ++ "." ++ M ++ "." ++ x) = (some svc, some mtype, none)) := by
  obtain ⟨h1, h2, h3, h4⟩ := parts_of_dotted S M x hS hM
  have hmem3 : '.' ∈ (S ++ "." ++ M ++ "." ++ x).data := by simp [String.data_append]
  have hmem2 : '.' ∈ (S ++ "." ++ M).data := by simp [String.data_append]
  have hfind3 : server.findService (S ++ "." ++ M ++ "." ++ x) = server.lookupBoth S M := by
    rw [findService_dot server _ hmem3, h1, h2]
  refine ⟨findService_dot server name, ?_, hfind3, ?_, ?_⟩
  · intro hno
    simp only [methodPart, servicePart, takeWhile_no_sep_eq '.' _ hno]
  · rw [hfind3, findService_dot server _ hmem2, h3, h4]
  · intro svc mtype hl hm
    rw [hfind3]
    simp [Server.lookupBoth, hl, hm]

/-- Witness for C6: with `Foo` registered, `Foo.Sum.x` resolves as
`Foo.Sum`. -/
theorem findService_splits_at_every_dot_witness :
    fooServer.findService "Foo.Sum.x" = fooServer.findService "Foo.Sum" :=
  (findService_splits_at_every_dot fooServer "Foo.Sum.x" "Foo" "Sum" "x"
    (by decide) (by decide)).2.2.2.1

/-- Counterexample to C6 as stated: with `Foo` registered and `Sum` in its
table, the remainder of `Foo.Sum.x` after the first `.` is `Sum.x`, which is
not a method of `Foo`, yet `findService` returns the entry of `Sum` with a
nil error instead of the unknown-method error. -/
theorem findService_resolves_past_second_dot :
    remainderPart "Foo.Sum.x" = "Sum.x" ∧
    (fooServer.lookupBoth (servicePart "Foo.Sum.x") (remainderPart "Foo.Sum.x")).2.2
      = some "rpc r: can't find method Sum.x" ∧
    (fooServer.findService "Foo.Sum.x").2.2 = none ∧
    (fooServer.findService "Foo.Sum.x").2.1 ≠ none ∧
    fooServer.findService "Foo.Sum.x"
      ≠ fooServer.lookupBoth (servicePart "Foo.Sum.x") (remainderPart "Foo.Sum.x") := by
  decide

/-! ### The method table -/

theorem lookup_tableSet {β : Type} (m : List (String × β)) (k k1 : String) (v : β) :
    (tableSet m k v).lookup k1 = if k1 = k then some v else m.lookup k1 := by
  by_cases h : k1 = k
  · subst h
    simp [tableSet, List.lookup]
  · have hb : (k1 == k) = false := by simpa using h
    simp only [tableSet, List.lookup, hb, h, if_false]
    induction m with
    | nil => rfl
    | cons e rest ih =>
      obtain ⟨k2, v2⟩ := e
      simp only [ne_eq, decide_not] at ih ⊢
      by_cases h2 : k2 = k
      · subst h2
        have hb2 : (k1 == k2) = false := by simpa using h
        simp [List.filter, List.lookup, hb2, ih]
      · by_cases h3 : k1 = k2
        · subst h3
          simp [List.filter, List.lookup, h2]
        · have hb3 : (k1 == k2) = false := by simpa using h3
          simp [List.filter, List.lookup, h2, hb3, ih]

/-- One iteration of the loop of `creatService`. -/
theorem registerLoop_cons (isUpper : Char → Bool) (m : Method) (rest : List Method)
    (table : List (String × methodType)) :
    registerLoop isUpper (m :: rest) table =
      registerLoop isUpper rest
        (if eligible isUpper m then tableSet table m.Name (entryOf m) else table) := by
  by_cases hel : eligible isUpper m
  · obtain ⟨recv, a, b, hIn, hOut, ha, hb⟩ := hel
    have hel2 : eligible isUpper m := ⟨recv, a, b, hIn, hOut, ha, hb⟩
    simp [registerLoop, hIn, hOut, ha, hb, hel2, entryOf]
  · simp only [hel, if_false]
    simp only [registerLoop]
    split
    · rfl
    · split
      · rfl
      · rename_i hlen hout
        split
        · rename_i recv a b hIn
          split
          · rfl
          · rename_i hexp
            exfalso
            apply hel
            have hOut : m.Out = [errorType] := by
              simp only [not_or, not_not] at hlen
              cases hO : m.Out with
              | nil => simp [hO] at hlen
              | cons o os =>
                cases os with
                | nil =>
                  simp only [hO, List.head?_cons, ne_eq, not_not, Option.some.injEq] at hout
                  rw [hout]
                | cons o2 os2 => simp [hO] at hlen
            simp only [Bool.or_eq_true, Bool.not_eq_true', not_or, Bool.not_eq_false] at hexp
            exact ⟨recv, a, b, hIn, hOut, hexp.1, hexp.2⟩
        · rfl

theorem registerLoop_lookup_other (isUpper : Char → Bool) (methods : List Method)
    (table : List (String × methodType)) (name : String) (h : ∀ m ∈ methods, m.Name ≠ name) :
    (registerLoop isUpper methods table).lookup name = table.lookup name := by
  induction methods generalizing table with
  | nil => rfl
  | cons m rest ih =>
    rw [registerLoop_cons, ih _ (fun m1 hm1 => h m1 (List.mem_cons_of_mem _ hm1))]
    have hne : name ≠ m.Name := fun heq => h m (List.mem_cons_self _ _) heq.symm
    split
    · rw [lookup_tableSet]; simp [hne]
    · rfl

theorem registerLoop_lookup (isUpper : Char → Bool) (methods : List Method)
    (table : List (String × methodType)) (hnodup : (methods.map Method.Name).Nodup)
    (m : Method) (hm : m ∈ methods) :
    (registerLoop isUpper methods table).lookup m.Name =
      if eligible isUpper m then some (entryOf m) else table.lookup m.Name := by
  induction methods generalizing table with
  | nil => simp at hm
  | cons m1 rest ih =>
    simp only [List.map_cons, List.nodup_cons] at hnodup
    rw [registerLoop_cons]
    rcases List.mem_cons.mp hm with heq | hmem
    · subst heq
      rw [registerLoop_lookup_other isUpper rest _ m.Name]
      · split
        · rw [lookup_tableSet]; simp
        · rfl
      · intro m2 hm2 hname
        exact hnodup.1 (List.mem_map.mpr ⟨m2, hm2, hname⟩)
    · rw [ih _ hnodup.2 hmem]
      have hne : m.Name ≠ m1.Name := by
        intro hname
        exact hnodup.1 (List.mem_map.mpr ⟨m, hmem, hname⟩)
      split
      · rfl
      · split
        · rw [lookup_tableSet]; simp [hne]
        · rfl

/-- C10, as amended: for every handler whose type name is exported (its
methods as reflection lists them, with distinct names), `creatService`
returns a service, and a method is in the table of that service exactly when
it has exactly two parameters besides the receiver, exactly one result, of
the error type, and an argument type and a reply type that are exported or
builtin (exported name or empty package path); every other method is left
out without an error, and no name that is not a method's is in the table. -/
theorem creatService_table (isUpper : Char → Bool) (rcvr : Rcvr)
    (hname : IsExported isUpper rcvr.typeName = true)
    (hnodup : (rcvr.methods.map Method.Name).Nodup) :
    ∃ svc, creatService isUpper rcvr = some svc ∧ svc.name = rcvr.typeName ∧
      (∀ m ∈ rcvr.methods,
        (eligible isUpper m → svc.method.lookup m.Name = some (entryOf m)) ∧
        (¬ eligible isUpper m → svc.method.lookup m.Name = none) ∧
        ((svc.method.lookup m.Name).isSome = true ↔
          (hasRpcShape m ∧ ∀ t ∈ m.In.drop 1, isExportedOrBuiltinType isUpper t = true))) ∧
      (∀ name, (∀ m ∈ rcvr.methods, m.Name ≠ name) → svc.method.lookup name = none) := by
  refine ⟨{ name := rcvr.typeName, method := registerLoop isUpper rcvr.methods [] }, ?_, rfl, ?_, ?_⟩
  · simp [creatService, hname]
  · intro m hm
    have hl := registerLoop_lookup isUpper rcvr.methods [] hnodup m hm
    have hiff : eligible isUpper m ↔
        (hasRpcShape m ∧ ∀ t ∈ m.In.drop 1, isExportedOrBuiltinType isUpper t = true) := by
      constructor
      · rintro ⟨recv, a, b, hIn, hOut, ha, hb⟩
        refine ⟨⟨by simp [hIn], hOut⟩, ?_⟩
        intro t ht
        simp only [hIn, List.drop_succ_cons, List.drop_zero, List.mem_cons, List.mem_singleton,
          List.not_mem_nil, or_false] at ht
        rcases ht with rfl | rfl
        · exact ha
        · exact hb
      · rintro ⟨⟨hlen, hOut⟩, hall⟩
        match hIn : m.In, hlen with
        | [recv, a, b], _ =>
          refine ⟨recv, a, b, hIn, hOut, hall a ?_, hall b ?_⟩ <;> simp [hIn]
    refine ⟨fun hel => by simpa [hel] using hl, fun hel => by simpa [hel] using hl, ?_⟩
    rw [← hiff]
    by_cases hel : eligible isUpper m
    · simp only [hel, if_true] at hl
      simp [hl, hel]
    · simp only [hel, if_false] at hl
      simp [hl, hel, List.lookup]
  · intro name hall
    exact registerLoop_lookup_other isUpper rcvr.methods [] name hall

/-- Witness for C10: the handler `Foo` of the tests gets its method `Sum`
entered. -/
theorem creatService_table_witness :
    ∃ svc, creatService Char.isUpper fooRcvr = some svc ∧
      svc.method.lookup "Sum" = some (entryOf sumMethod) := by
  obtain ⟨svc, h1, _, h2, _⟩ := creatService_table Char.isUpper fooRcvr (by decide) (by decide)
  exact ⟨svc, h1, (h2 sumMethod (by decide)).1 (by decide)⟩

/-- Counterexample to C10 as stated: a method with exactly two parameters
besides the receiver and one result of the error type, whose argument type
is the unexported type `main.args`, is not entered in the table. -/
theorem creatService_excludes_unexported_argument :
    hasRpcShape unexportedArgMethod ∧
    creatService Char.isUpper { typeName := "Foo", methods := [unexportedArgMethod] }
      = some { name := "Foo", method := [] } := by
  refine ⟨⟨by decide, by decide⟩, by decide⟩

/-! ### The request pipeline -/

/-- Method `findService` never returns a nil entry together with a nil
error, so the branch of `readRequest` for that case is never taken. -/
theorem findService_nil_entry_has_error (server : Server) (name : String) :
    (server.findService name).2.1 = none → (server.findService name).2.2 ≠ none := by
  intro h
  by_cases hdot : '.' ∈ name.data
  · rw [findService_dot server name hdot] at h ⊢
    cases hl : server.serviceMap.lookup (servicePart name) with
    | none => simp [Server.lookupBoth, hl]
    | some svc =>
      cases hm : svc.method.lookup (methodPart name) with
      | none => simp [Server.lookupBoth, hl, hm]
      | some mtype => simp [Server.lookupBoth, hl, hm] at h
  · simp [findService_no_dot server name hdot]

/-- When the name of a frame does not resolve, `readRequest` returns after
the header: the body of the frame is left unread on the connection. -/
theorem readRequest_unresolved_leaves_body (server : Server) (cc : Decoder) (item : Item)
    (rest : List Item) (h : Header) (svc : Option service) (mtype : Option methodType)
    (err : String) (hh : cc.ReadHeader item = .ok h)
    (hf : server.findService h.ServiceMethod = (svc, mtype, some err)) :
    server.readRequest cc (item :: rest) =
      (.failed { h := h, svc := svc, mtype := mtype } err, rest) := by
  simp [Server.readRequest, hh, hf]

theorem readRequest_consumes (server : Server) (cc : Decoder) (stream : List Item) :
    (∃ err, (server.readRequest cc stream).1 = .fatal err) ∨
    (server.readRequest cc stream).2.length < stream.length := by
  cases stream with
  | nil => exact Or.inl ⟨"EOF", rfl⟩
  | cons item rest =>
    simp only [Server.readRequest]
    cases hh : cc.ReadHeader item with
    | error err => exact Or.inl ⟨err, rfl⟩
    | ok h =>
      right
      rcases hf : server.findService h.ServiceMethod with ⟨svc, _ | mtype, _ | err⟩
      · simp [hf]
      · simp [hf]
      · cases rest with
        | nil => simp [hf]
        | cons item2 rest2 =>
          cases hb : cc.ReadBody mtype item2 with
          | error err => simp [hf, hb]; omega
          | ok v => simp [hf, hb]; omega
      · simp [hf]

/-- The loop of `serveCodec` ends: with more iterations allowed than there
are values on the connection it returns. -/
theorem serveLoop_returns (server : Server) (cc : Decoder) (fuel : Nat) (stream : List Item)
    (h : stream.length < fuel) : (server.serveLoop cc fuel stream).isSome = true := by
  induction fuel generalizing stream with
  | zero => omega
  | succ fuel ih =>
    simp only [Server.serveLoop]
    rcases hr : server.readRequest cc stream with ⟨_ | ⟨req, err⟩ | req, rest⟩
    · rfl
    · have hlen : rest.length < stream.length := by
        rcases readRequest_consumes server cc stream with ⟨e, he⟩ | hlt
        · rw [hr] at he; simp at he
        · rw [hr] at hlt; exact hlt
      have := ih rest (by omega)
      simp [Option.isSome_map', this]
    · have hlen : rest.length < stream.length := by
        rcases readRequest_consumes server cc stream with ⟨e, he⟩ | hlt
        · rw [hr] at he; simp at he
        · rw [hr] at hlt; exact hlt
      have := ih rest (by omega)
      simp [Option.isSome_map', this]

theorem serveCodec_returns (server : Server) (cc : Decoder) (stream : List Item) :
    (server.serveCodec cc stream).isSome = true :=
  serveLoop_returns server cc _ stream (Nat.lt_succ_self _)

/-- C7, the code at the failing input: on a gob connection, a frame for
the unknown method `Foo.Missing` followed by a well-formed frame for
`Foo.Sum` gets the error response for sequence number 1 and nothing else.
`readRequest` left the body of the first frame unread, the next `ReadHeader`
meets that body, fails, and ends the loop; the frame for `Foo.Sum`, which is
served when it comes first, is never read. -/
theorem serveCodec_unresolved_name_ends_loop :
    fooServer.serveCodec gobDecoder missingThenSum =
      some [.errorResponse { ServiceMethod := "Foo.Missing", Seq := 1,
                             Error := "rpc r: can't find method Missing" }] ∧
    (fooServer.readRequest gobDecoder missingThenSum).2 = missingThenSum.drop 1 ∧
    (fooServer.readRequest gobDecoder (missingThenSum.drop 1)).1 =
      .fatal "gob: type mismatch: no fields matched compiling decoder for Header" ∧
    fooServer.serveCodec gobDecoder (missingThenSum.drop 2) =
      some [.handleRequest { h := { ServiceMethod := "Foo.Sum", Seq := 2 },
                             svc := fooServer.serviceMap.lookup "Foo",
                             mtype := some (entryOf sumMethod), argv := some "{3 4}" }] := by
  decide

/-! ### The handle timeout -/

/-- Once `handleRequest` has returned while the worker is still in the
handler or blocked on `called`, no step writes a response. -/
theorem Handling_abandoned_step (s s1 : Handling) (ev : HEvent) (hmain : s.main = .returned)
    (hworker : s.worker = .calling ∨ ∃ err reply, s.worker = .atCalled err reply)
    (h : s.step ev = some s1) :
    s1.wire = s.wire ∧ s1.h = s.h ∧ s1.main = .returned ∧
    (s1.worker = .calling ∨ ∃ err reply, s1.worker = .atCalled err reply) := by
  cases ev with
  | handlerReturns err reply =>
    rcases hworker with hw | ⟨e, r, hw⟩
    · simp only [Handling.step, hw, Option.some.injEq] at h
      subst h
      exact ⟨rfl, rfl, hmain, Or.inr ⟨err, reply, rfl⟩⟩
    · simp [Handling.step, hw] at h
  | called =>
    rcases hworker with hw | ⟨e, r, hw⟩ <;> simp [Handling.step, hw, hmain] at h
  | workerResponds =>
    rcases hworker with hw | ⟨e, r, hw⟩ <;> simp [Handling.step, hw] at h
  | sent =>
    rcases hworker with hw | ⟨e, r, hw⟩ <;> simp [Handling.step, hw] at h
  | timerFires => simp [Handling.step, hmain] at h

theorem Handling_abandoned_run (evs : List HEvent) (s s1 : Handling) (hmain : s.main = .returned)
    (hworker : s.worker = .calling ∨ ∃ err reply, s.worker = .atCalled err reply)
    (h : s.run evs = some s1) :
    s1.wire = s.wire ∧ s1.h = s.h ∧ s1.main = .returned ∧
    (s1.worker = .calling ∨ ∃ err reply, s1.worker = .atCalled err reply) := by
  induction evs generalizing s with
  | nil =>
    simp only [Handling.run, Option.some.injEq] at h
    subst h
    exact ⟨rfl, rfl, hmain, hworker⟩
  | cons ev evs ih =>
    simp only [Handling.run] at h
    cases hstep : s.step ev with
    | none => simp [hstep] at h
    | some s2 =>
      simp only [hstep] at h
      obtain ⟨h1, h2, h3, h4⟩ := Handling_abandoned_step s s2 ev hmain hworker hstep
      obtain ⟨h5, h6, h7, h8⟩ := ih s2 h3 h4 h
      exact ⟨h5.trans h1, h6.trans h2, h7, h8⟩

/-- C9: for a request handled with a timeout `t > 0` whose handler is still
running when the timer fires, the timeout case of the `select` can be taken
and writes one response, whose header carries the error text "rpc r: request
handle timeout: expect within" followed by `t` and whose body is
`invalidRequest`; `handleRequest` has then returned, and whatever happens
afterwards (the handler returning a reply or an error included) the
connection carries exactly that one response: the worker stays blocked on
the unbuffered channel `called` and never writes. -/
theorem handleRequest_timeout_single_response (h : Header) (t : Duration) (ht : 0 < t.ns) :
    ∃ s1, (Handling.init h t).step .timerFires = some s1 ∧
      s1.wire = [{ h := { h with Error := timeoutText t }, body := none }] ∧
      timeoutText t = "rpc r: request handle timeout: expect within " ++ t.text ∧
      s1.main = .returned ∧
      ∀ (evs : List HEvent) (s2 : Handling), s1.run evs = some s2 →
        s2.wire = [{ h := { h with Error := timeoutText t }, body := none }] ∧
        s2.main = .returned ∧
        (s2.worker = .calling ∨ ∃ err reply, s2.worker = .atCalled err reply) := by
  have hne : t.ns ≠ 0 := by omega
  refine ⟨{ (Handling.init h t) with
      h := { h with Error := timeoutText t },
      wire := [{ h := { h with Error := timeoutText t }, body := none }],
      main := .returned }, ?_, rfl, rfl, rfl, ?_⟩
  · simp [Handling.step, Handling.init, hne]
  · intro evs s2 hrun
    obtain ⟨h1, _, h3, h4⟩ := Handling_abandoned_run evs _ s2 rfl (Or.inl rfl) hrun
    exact ⟨h1, h3, h4⟩

/-- Witness for C9: a timeout of one second; the handler returns its reply
after the timer has fired, and the connection carries the timeout response
only. -/
theorem handleRequest_timeout_single_response_witness :
    ((Handling.init { ServiceMethod := "Foo.Sleep", Seq := 7 } { ns := 1000000000, text := "1s" }).run
        [.timerFires, .handlerReturns none "3"]).map (fun s => s.wire) =
      some [{ h := { ServiceMethod := "Foo.Sleep", Seq := 7,
                     Error := "rpc r: request handle timeout: expect within 1s" },
              body := none }] := by
  obtain ⟨s1, hstep, _, _, _, hall⟩ := handleRequest_timeout_single_response
    { ServiceMethod := "Foo.Sleep", Seq := 7 } { ns := 1000000000, text := "1s" } (by decide)
  have hrun : (Handling.init { ServiceMethod := "Foo.Sleep", Seq := 7 }
      { ns := 1000000000, text := "1s" }).run [.timerFires, .handlerReturns none "3"] =
      s1.run [.handlerReturns none "3"] := by
    simp only [Handling.run, hstep]
  cases hres : s1.run [.handlerReturns none "3"] with
  | none =>
    rw [hrun, hres]
    have : (Handling.init { ServiceMethod := "Foo.Sleep", Seq := 7 }
      { ns := 1000000000, text := "1s" }).run [.timerFires, .handlerReturns none "3"] ≠ none := by
      decide
    rw [hrun, hres] at this
    exact absurd rfl this
  | some s2 =>
    rw [hrun, hres]
    simp only [Option.map_some', (hall _ s2 hres).1]
    decide

/-! ### Registration of a handler -/

theorem creatService_name (isUpper : Char → Bool) (rcvr : Rcvr) (s : service)
    (h : creatService isUpper rcvr = some s) :
    s.name = rcvr.typeName ∧ IsExported isUpper rcvr.typeName = true := by
  simp only [creatService] at h
  split at h
  · simp at h
  · rename_i hex
    simp only [Option.some.injEq] at h
    subst h
    exact ⟨rfl, by simpa using hex⟩

theorem creatService_unexported (isUpper : Char → Bool) (rcvr : Rcvr)
    (h : IsExported isUpper rcvr.typeName = false) : creatService isUpper rcvr = none := by
  simp [creatService, h]

/-- C11, as amended: `Register` returns a non-nil error, leaving the
service map unchanged (the earlier binding is kept), exactly when the name
of the handler's type is exported and already registered; when the name is
not exported `Register` does not return at all, because `creatService` ends
the process with `log.Fatalf`; and when the name is exported and not yet
registered it binds the name to the new service, leaves the other bindings
alone, and returns nil. -/
theorem Register_outcomes (isUpper : Char → Bool) (server : Server) (rcvr : Rcvr) :
    (IsExported isUpper rcvr.typeName = false → server.Register isUpper rcvr = none) ∧
    (∀ old, IsExported isUpper rcvr.typeName = true →
      server.serviceMap.lookup rcvr.typeName = some old →
      server.Register isUpper rcvr =
        some (server, some ("rpc: service already defined: " ++ rcvr.typeName))) ∧
    (IsExported isUpper rcvr.typeName = true → server.serviceMap.lookup rcvr.typeName = none →
      ∃ svc server1, creatService isUpper rcvr = some svc ∧
        server.Register isUpper rcvr = some (server1, none) ∧
        server1.serviceMap.lookup rcvr.typeName = some svc ∧
        ∀ name, name ≠ rcvr.typeName →
          server1.serviceMap.lookup name = server.serviceMap.lookup name) ∧
    (∀ server1 err, server.Register isUpper rcvr = some (server1, some err) ↔
      (IsExported isUpper rcvr.typeName = true ∧
        (server.serviceMap.lookup rcvr.typeName).isSome = true ∧ server1 = server ∧
        err = "rpc: service already defined: " ++ rcvr.typeName)) := by
  have hexp : IsExported isUpper rcvr.typeName = true →
      creatService isUpper rcvr =
        some { name := rcvr.typeName, method := registerLoop isUpper rcvr.methods [] } := by
    intro h
    simp [creatService, h]
  refine ⟨?_, ?_, ?_, ?_⟩
  · intro h
    simp [Server.Register, creatService_unexported isUpper rcvr h]
  · intro old h hl
    simp [Server.Register, hexp h, hl]
  · intro h hl
    refine ⟨{ name := rcvr.typeName, method := registerLoop isUpper rcvr.methods [] },
      { serviceMap := (rcvr.typeName,
          { name := rcvr.typeName, method := registerLoop isUpper rcvr.methods [] }) ::
          server.serviceMap }, hexp h, ?_, ?_, ?_⟩
    · simp [Server.Register, hexp h, hl]
    · simp [List.lookup]
    · intro name hne
      have hb : (name == rcvr.typeName) = false := by simpa using hne
      simp [List.lookup, hb]
  · intro server1 err
    constructor
    · intro hreg
      cases hex : IsExported isUpper rcvr.typeName with
      | false => simp [Server.Register, creatService_unexported isUpper rcvr hex] at hreg
      | true =>
        cases hl : server.serviceMap.lookup rcvr.typeName with
        | none => simp [Server.Register, hexp hex, hl] at hreg
        | some old =>
          simp only [Server.Register, hexp hex, hl, Option.some.injEq, Prod.mk.injEq] at hreg
          exact ⟨rfl, rfl, hreg.1.symm, hreg.2.symm⟩
    · rintro ⟨hex, hsome, rfl, rfl⟩
      obtain ⟨old, hold⟩ := Option.isSome_iff_exists.mp hsome
      simp [Server.Register, hexp hex, hold]

/-- Witness for C11: registering `Foo` a second time returns the
duplicate error and keeps the server as it was. -/
theorem Register_outcomes_witness :
    fooServer.Register Char.isUpper fooRcvr =
      some (fooServer, some "rpc: service already defined: Foo") :=
  ((Register_outcomes Char.isUpper fooServer fooRcvr).2.1
    ((fooServer.serviceMap.lookup "Foo").getD { name := "", method := [] })
    (by decide) (by decide)).trans (by decide)

/-- Counterexample to C11 as stated: for a handler whose type name `foo`
is not exported, `Register` returns no error: the process is ended inside
`creatService`. -/
theorem Register_unexported_does_not_return :
    IsExported Char.isUpper unexportedRcvr.typeName = false ∧
    (∀ server : Server, ∀ r, server.Register Char.isUpper unexportedRcvr ≠ some r) ∧
    Server.Register Char.isUpper { serviceMap := [] } unexportedRcvr = none := by
  refine ⟨by decide, ?_, by decide⟩
  intro server r h
  simp [Server.Register, creatService, unexportedRcvr, IsExported] at h

/-! ### Close -/

theorem sendEncoded_ccClosed (c : Client) (seq : Nat) (encodeErr : Option String) :
    (c.sendEncoded seq encodeErr).ccClosed = c.ccClosed := by
  cases encodeErr with
  | none => rfl
  | some err =>
    cases hl : c.pending.lookup seq <;>
      simp [Client.sendEncoded, Client.removeCall, hl, Client.done, Client.setError]

theorem receiveFrame_ccClosed (c : Client) (f : Frame) :
    (c.receiveFrame f).1.ccClosed = c.ccClosed := by
  cases hl : c.pending.lookup f.h.Seq with
  | none => simp [Client.receiveFrame, Client.removeCall, hl]
  | some p =>
    by_cases herr : f.h.Error = ""
    · cases hd : f.decoded <;>
        simp [Client.receiveFrame, Client.removeCall, hl, herr, hd, Client.done, Client.setError]
    · simp [Client.receiveFrame, Client.removeCall, hl, herr, Client.done, Client.setError]

theorem newCall_sendRegister_ccClosed (c : Client) (sm : String) :
    ((c.newCall sm).1.sendRegister (c.newCall sm).2).1.ccClosed = c.ccClosed := by
  by_cases hav : (c.closing || c.shutdown) = true
  · simp [Client.newCall, Client.sendRegister, Client.registerCall, hav, Client.done,
      Client.setError]
  · simp [Client.newCall, Client.sendRegister, Client.registerCall, hav, Client.store]

/-- Once `closing` is set no step of the engine closes the codec. -/
theorem step_ccClosed (e e1 : Engine) (ev : Event) (h : e.step ev = some e1)
    (hcl : e.client.closing = true) : e1.client.ccClosed = e.client.ccClosed := by
  cases ev with
  | Go sm =>
    cases hs : e.sending with
    | some x => simp [Engine.step, hs] at h
    | none =>
      rw [step_Go e sm hs] at h
      have he1 := Option.some.inj h
      subst he1
      exact newCall_sendRegister_ccClosed e.client sm
  | encodeOk =>
    obtain ⟨call, seq, hs, rfl⟩ := step_sendEncoded e e1 _ none (Or.inl ⟨rfl, rfl⟩) h
    rfl
  | encodeFail err =>
    obtain ⟨call, seq, hs, rfl⟩ := step_sendEncoded e e1 _ (some err) (Or.inr ⟨err, rfl, rfl⟩) h
    exact sendEncoded_ccClosed e.client seq (some err)
  | frame f =>
    cases hl : e.loop with
    | reading =>
      have hc : e1.client = (e.client.receiveFrame f).1 := by
        simp only [Engine.step, hl] at h
        rcases hres : e.client.receiveFrame f with ⟨c, _ | err⟩ <;>
          · simp only [hres, Option.some.injEq] at h
            subst h
            rfl
      rw [hc]
      exact receiveFrame_ccClosed e.client f
    | failed err => simp [Engine.step, hl] at h
    | ended => simp [Engine.step, hl] at h
  | headerFail err =>
    cases hl : e.loop with
    | reading =>
      simp only [Engine.step, hl, Option.some.injEq] at h
      subst h
      rfl
    | failed err => simp [Engine.step, hl] at h
    | ended => simp [Engine.step, hl] at h
  | terminate =>
    cases hl : e.loop with
    | reading => simp [Engine.step, hl] at h
    | ended => simp [Engine.step, hl] at h
    | failed err =>
      cases hs : e.sending with
      | some x => simp [Engine.step, hl, hs] at h
      | none =>
        simp only [Engine.step, hl, hs, Option.some.injEq] at h
        subst h
        exact (terminateCalls_fields e.client err).2.2.2.2.2.1
  | cancel call =>
    by_cases hg : call < e.client.nextPtr ∧ (e.sending.map Prod.fst) ≠ some call
    · simp only [Engine.step] at h
      rw [if_pos hg] at h
      have h := Option.some.inj h
      subst h
      rfl
    · simp only [Engine.step] at h
      rw [if_neg hg] at h
      simp at h
  | Close ccErr =>
    simp only [Engine.step, Option.some.injEq] at h
    subst h
    simp [Client.Close, hcl]

theorem run_ccClosed (evs : List Event) (e e1 : Engine) (h : e.run evs = some e1)
    (hcl : e.client.closing = true) : e1.client.ccClosed = e.client.ccClosed := by
  induction evs generalizing e with
  | nil =>
    simp only [Engine.run, Option.some.injEq] at h
    subst h; rfl
  | cons ev evs ih =>
    simp only [Engine.run] at h
    cases hstep : e.step ev with
    | none => simp [hstep] at h
    | some e2 =>
      simp only [hstep] at h
      rw [ih e2 h ((step_flags e e2 ev hstep).1 hcl), step_ccClosed e e2 ev hstep hcl]

/-- C12: the first `Close` of a client (its `closing` flag is not set) sets
the flag, calls the codec's `Close` once and returns its result, and leaves
the ledger, the counter, the shutdown flag and the calls unchanged; a
`Close` on a client whose `closing` flag is set returns `ErrShutdown` and
changes nothing, so every later `Close`, after whatever steps of the engine,
returns `ErrShutdown` and the codec is not closed again; and after any
`Close`, `IsAvailable` returns false, now and after every later step. -/
theorem Close_once (c : Client) (ccErr : Option String) :
    (c.closing = false →
      (c.Close ccErr).2 = ccErr ∧ (c.Close ccErr).1.closing = true ∧
      (c.Close ccErr).1.ccClosed = c.ccClosed + 1 ∧
      (c.Close ccErr).1.pending = c.pending ∧ (c.Close ccErr).1.seq = c.seq ∧
      (c.Close ccErr).1.shutdown = c.shutdown ∧ (c.Close ccErr).1.mem = c.mem) ∧
    (c.closing = true → c.Close ccErr = (c, some ErrShutdown)) ∧
    (c.Close ccErr).1.closing = true ∧
    (c.Close ccErr).1.IsAvailable = false ∧
    (∀ (e e1 : Engine) (evs : List Event) (ccErr2 : Option String),
      e.client = (c.Close ccErr).1 → e.run evs = some e1 →
      e1.client.Close ccErr2 = (e1.client, some ErrShutdown) ∧
      e1.client.ccClosed = (c.Close ccErr).1.ccClosed ∧
      e1.client.IsAvailable = false) := by
  have hclosing : (c.Close ccErr).1.closing = true := by
    by_cases hc : c.closing = true <;> simp [Client.Close, hc]
  refine ⟨?_, ?_, hclosing, ?_, ?_⟩
  · intro hc
    simp [Client.Close, hc]
  · intro hc
    simp [Client.Close, hc]
  · simp [Client.IsAvailable, hclosing]
  · intro e e1 evs ccErr2 he hrun
    have hcl : e.client.closing = true := by rw [he]; exact hclosing
    have hcl1 := (run_flags evs e e1 hrun).1 hcl
    refine ⟨by simp [Client.Close, hcl1], ?_, by simp [Client.IsAvailable, hcl1]⟩
    rw [run_ccClosed evs e e1 hrun hcl, he]

/-- Witness for C12: closing a client with one pending call returns the
codec's result, and a second `Close` returns `ErrShutdown`. -/
theorem Close_once_witness :
    (onePending.Close (some "use of closed network connection")).2
      = some "use of closed network connection" ∧
    ((onePending.Close none).1.Close none).2 = some ErrShutdown :=
  ⟨((Close_once onePending (some "use of closed network connection")).1 (by decide)).1,
    by rw [(Close_once (onePending.Close none).1 none).2.1 (by decide)]⟩

/-! ### The error text of a response -/

/-- A response frame that matches a pending call and carries an error
text completes the call with the error that `fmt.Errorf` makes of the text
taken as a format. -/
theorem receiveFrame_error_text (c : Client) (f : Frame) (p : Ptr)
    (hp : c.pending.lookup f.h.Seq = some p) (herr : f.h.Error ≠ "") :
    ((c.receiveFrame f).1.mem p).Error = some (Errorf f.h.Error) ∧
    ((c.receiveFrame f).1.mem p).doneCount = (c.mem p).doneCount + 1 := by
  have heff := receiveFrame_effect c f
  refine ⟨?_, by simpa [hp, Client.dones] using heff.dones p⟩
  simp only [Client.receiveFrame, Client.removeCall, hp, herr, ne_eq, not_false_eq_true, if_true]
  simp only [done_error, setError_error, if_true]

/-- An error text without `%` reaches the call unchanged. -/
theorem Errorf_plain (e : String) (h : '%' ∉ e.data) : Errorf e = e := by
  simp only [Errorf, doPrintf_plain e.data e.data.length h (Nat.le_refl _)]

/-- C13, the code at the failing input: call 1 is pending and the response
carries the error text `disk 100% full`; the call is completed with an error
whose message is `disk 100%!f(MISSING)ull`, because `receive` passes the text
to `fmt.Errorf` as a format. -/
theorem receiveFrame_percent_text_mangled :
    onePending.pending.lookup percentFrame.h.Seq = some 0 ∧
    ((onePending.receiveFrame percentFrame).1.mem 0).Error = some "disk 100%!f(MISSING)ull" ∧
    ((onePending.receiveFrame percentFrame).1.mem 0).Error ≠ some percentFrame.h.Error ∧
    ((onePending.receiveFrame percentFrame).1.mem 0).doneCount = 1 := by
  decide

/-! ### `ServeConn` -/

theorem codec_registered_iff (t : String) :
    NewCodecFuncMap.contains t = true ↔ (t = "application/gob" ∨ t = "application/json") := by
  simp [NewCodecFuncMap, GobType, JsonType]

/-- C14: `ServeConn` calls `serveCodec`, the frame-read loop, exactly when
the preamble decodes, its `MagicNumber` is `0x3bef5c` and its `CodecType` is
`application/gob` or `application/json`; the loop then runs with the codec
of that type on what follows the preamble. For every other preamble nothing
is served or written and the connection is closed. -/
theorem ServeConn_enters_loop_iff (server : Server) (codecs : String → Decoder)
    (preamble : Except String Opt) (stream : List Item) :
    ((server.ServeConn codecs preamble stream).entered = true ↔
      ∃ opt, preamble = .ok opt ∧ opt.MagicNumber = 0x3bef5c ∧
        (opt.CodecType = "application/gob" ∨ opt.CodecType = "application/json")) ∧
    ((server.ServeConn codecs preamble stream).entered = false →
      (server.ServeConn codecs preamble stream).served = [] ∧
      (server.ServeConn codecs preamble stream).closes = 1) ∧
    (∀ opt, preamble = .ok opt → (server.ServeConn codecs preamble stream).entered = true →
      server.serveCodec (codecs opt.CodecType) stream
        = some (server.ServeConn codecs preamble stream).served ∧
      1 ≤ (server.ServeConn codecs preamble stream).closes) := by
  cases preamble with
  | error err => simp [Server.ServeConn]
  | ok opt =>
    by_cases hm : opt.MagicNumber = MagicNumber
    · cases hc : NewCodecFuncMap.contains opt.CodecType with
      | true =>
        have hc2 := (codec_registered_iff opt.CodecType).mp hc
        have hm2 : opt.MagicNumber = 0x3bef5c := hm
        have hret := serveCodec_returns server (codecs opt.CodecType) stream
        obtain ⟨out, hout⟩ := Option.isSome_iff_exists.mp hret
        have heq : server.ServeConn codecs (.ok opt) stream =
            { entered := true, served := out, closes := 2 } := by
          simp only [Server.ServeConn, hm, hc, hout, ne_eq, not_true_eq_false, if_false,
            Bool.not_true, Bool.false_eq_true, Option.getD_some]
        rw [heq]
        refine ⟨?_, ?_, ?_⟩
        · simp only [true_iff]
          exact ⟨opt, rfl, hm2, hc2⟩
        · simp
        · intro opt1 hopt _
          have hopt1 : opt = opt1 := by
            injection hopt
          subst hopt1
          exact ⟨hout, Nat.le_succ 1⟩
      | false =>
        have hc3 : ¬ (opt.CodecType = "application/gob" ∨ opt.CodecType = "application/json") := by
          intro h
          have := (codec_registered_iff opt.CodecType).mpr h
          rw [hc] at this
          exact Bool.false_ne_true this
        have heq : server.ServeConn codecs (.ok opt) stream =
            { entered := false, served := [], closes := 1 } := by
          simp only [Server.ServeConn, hm, hc, ne_eq, not_true_eq_false, if_false,
            Bool.not_false, if_true]
        rw [heq]
        refine ⟨?_, ?_, ?_⟩
        · simp only [Bool.false_eq_true, false_iff]
          rintro ⟨opt1, hopt, _, h2⟩
          have hopt1 : opt = opt1 := by
            injection hopt
          subst hopt1
          exact hc3 h2
        · simp
        · simp
    · have heq : server.ServeConn codecs (.ok opt) stream =
          { entered := false, served := [], closes := 1 } := by
        simp only [Server.ServeConn, hm, ne_eq, not_false_eq_true, if_true]
      rw [heq]
      refine ⟨?_, ?_, ?_⟩
      · simp only [Bool.false_eq_true, false_iff]
        rintro ⟨opt1, hopt, h1, _⟩
        have hopt1 : opt = opt1 := by
          injection hopt
        subst hopt1
        exact hm h1
      · simp
      · simp

/-- Witness for C14: a preamble with a wrong magic number closes the
connection without serving; the default options enter the loop. -/
theorem ServeConn_enters_loop_iff_witness :
    (fooServer.ServeConn (fun _ => gobDecoder) (.ok { DefaultOption with MagicNumber := 1 })
      missingThenSum).closes = 1 ∧
    (fooServer.ServeConn (fun _ => gobDecoder) (.ok DefaultOption) missingThenSum).entered = true :=
  ⟨((ServeConn_enters_loop_iff fooServer (fun _ => gobDecoder)
      (.ok { DefaultOption with MagicNumber := 1 }) missingThenSum).2.1 (by decide)).2,
    (ServeConn_enters_loop_iff fooServer (fun _ => gobDecoder) (.ok DefaultOption)
      missingThenSum).1.mpr ⟨DefaultOption, rfl, by decide, by decide⟩⟩

/-! ### Dialing -/

/-- What `parseOptions` does on the argument lists its comment describes:
none, a nil one, one option, several with a first option that is not nil. -/
theorem parseOptions_cases (opt : Opt) (rest : List (Option Opt)) :
    parseOptions [] = (some DefaultOption, none) ∧
    parseOptions [none] = (some DefaultOption, none) ∧
    (parseOptions [some opt]).2 = none ∧
    (∃ opt1, (parseOptions [some opt]).1 = some opt1 ∧
      opt1.MagicNumber = DefaultOption.MagicNumber ∧
      opt1.CodecType = (if opt.CodecType = "" then DefaultOption.CodecType else opt.CodecType) ∧
      opt1.ConnectTimeout = opt.ConnectTimeout ∧ opt1.HandleTimeout = opt.HandleTimeout) ∧
    (rest ≠ [] →
      parseOptions (some opt :: rest) = (none, some "number of options is more than 1")) ∧
    parseOptions (none :: rest) = (some DefaultOption, none) := by
  refine ⟨rfl, rfl, ?_, ?_, ?_, rfl⟩
  · by_cases hc : opt.CodecType = "" <;> simp [parseOptions, hc]
  · by_cases hc : opt.CodecType = ""
    · refine ⟨
        { opt with
          MagicNumber := DefaultOption.MagicNumber, CodecType := DefaultOption.CodecType },
        by simp [parseOptions, hc], rfl, by simp [hc], rfl, rfl⟩
    · exact ⟨{ opt with MagicNumber := DefaultOption.MagicNumber },
        by simp [parseOptions, hc], rfl, by simp [hc], rfl, rfl⟩
  · intro hrest
    have : rest.length ≠ 0 := by
      intro h0
      exact hrest (List.length_eq_zero.mp h0)
    simp [parseOptions, this]

/-- Function `parseOptions` returns an option or an error, never neither. -/
theorem parseOptions_option_or_error (opts : List (Option Opt)) :
    (parseOptions opts).1.isSome = true ∨ (parseOptions opts).2.isSome = true := by
  match opts with
  | [] => exact Or.inl rfl
  | none :: _ => exact Or.inl rfl
  | some opt :: rest =>
    by_cases hr : rest.length + 1 ≠ 1
    · right
      simp only [parseOptions]
      rw [if_pos hr]
      rfl
    · left
      simp only [parseOptions]
      rw [if_neg hr]
      by_cases hc : opt.CodecType = "" <;> simp [hc]

/-- C18, the code at the failing input: with two arguments of which the
first is nil, `parseOptions` returns `DefaultOption` and no error, although
more than one argument was passed. -/
theorem parseOptions_nil_first_of_two :
    [none, some noTimeoutOption].length = 2 ∧
    parseOptions [none, some noTimeoutOption] = (some DefaultOption, none) ∧
    (parseOptions [none, some noTimeoutOption]).2 = none ∧
    parseOptions [some noTimeoutOption, none] = (none, some "number of options is more than 1") := by
  decide

/-- With a connect timeout that is not zero, a successful dial and a timer
that does not fire first, `dialTimeout` returns what its constructor
argument returns on the parsed options. -/
theorem dialTimeout_uses_constructor (f : Opt → Option Client × Option String)
    (opts : List (Option Opt)) (encodeErr : Option String) (opt : Opt)
    (hparse : parseOptions opts = (some opt, none)) (ht : opt.ConnectTimeout.ns ≠ 0) :
    (dialTimeout f opts none encodeErr false).1 = (f opt).1 ∧
    (dialTimeout f opts none encodeErr false).2.1 = (f opt).2 := by
  simp [dialTimeout, hparse, ht]

/-- C19, the code at the failing input: `DialHTTP` with `ConnectTimeout = 0`
against a peer that answers the `CONNECT` request with `404 Not Found`. The
constructor argument `NewHTTPClient` returns no client and the error
"unexpected HTTP response", yet `dialTimeout` returns a client and no error:
for a zero timeout it calls `NewClient` whatever its argument `f` is. -/
theorem DialHTTP_zero_timeout_skips_handshake :
    (parseOptions [some noTimeoutOption]).1
      = some { noTimeoutOption with MagicNumber := MagicNumber, CodecType := GobType } ∧
    NewHTTPClient { noTimeoutOption with MagicNumber := MagicNumber, CodecType := GobType }
      (.ok "404 Not Found") none = (none, some "unexpected HTTP response: 404 Not Found") ∧
    (DialHTTP (.ok "404 Not Found") [some noTimeoutOption] none none false).1.isSome = true ∧
    (DialHTTP (.ok "404 Not Found") [some noTimeoutOption] none none false).2.1 = none ∧
    (DialHTTP (.ok "404 Not Found") [some noTimeoutOption] none none false).1
      = (NewClient { noTimeoutOption with MagicNumber := MagicNumber, CodecType := GobType }
          none).1 ∧
    (DialHTTP (.ok "404 Not Found") [some { noTimeoutOption with
        ConnectTimeout := { ns := 1000000000, text := "1s" } }] none none false).2.1
      = some "unexpected HTTP response: 404 Not Found" := by
  refine ⟨by decide, rfl, by decide, by decide, rfl, by decide⟩

/-! ### Discovery through the registry -/

theorem Discovery_samples :
    TrimSpace "  tcp@a:1 \t" = "tcp@a:1" ∧ TrimSpace " \n " = "" ∧ TrimSpace "a b" = "a b" ∧
    refreshLoop (Split " tcp@a:1 ,, tcp@b:2,  " ',') [] = ["tcp@a:1", "tcp@b:2"] ∧
    refreshLoop (Split "" ',') [] = [] ∧
    deleteLoop "b" [] ["a", "b", "c", "b"] = ["a", "c", "b"] ∧
    deleteLoop "x" [] ["a", "b"] = ["a", "b"] := by
  decide

theorem refreshLoop_eq (l acc : List String) :
    refreshLoop l acc = acc ++ (l.map TrimSpace).filter (fun a => decide (a ≠ "")) := by
  induction l generalizing acc with
  | nil => simp [refreshLoop]
  | cons x rest ih =>
    simp only [refreshLoop, List.map_cons]
    by_cases h : TrimSpace x = ""
    · simp [h, ih, List.filter]
    · simp [h, ih, List.filter]

theorem head_dropWhile_not {α : Type} (p : α → Bool) (l : List α) (x : α)
    (h : (l.dropWhile p).head? = some x) : p x = false := by
  induction l with
  | nil => simp at h
  | cons y ys ih =>
    by_cases hy : p y = true
    · simp only [List.dropWhile, hy] at h
      exact ih h
    · have hy2 : p y = false := by simpa using hy
      simp only [List.dropWhile, hy2, List.head?_cons, Option.some.injEq] at h
      rw [← h]; exact hy2

theorem dropWhile_append_not {α : Type} (p : α → Bool) (l : List α) (y : α) (hy : p y = false) :
    (l ++ [y]).dropWhile p = l.dropWhile p ++ [y] := by
  induction l with
  | nil => simp [List.dropWhile, hy]
  | cons x xs ih =>
    by_cases hx : p x = true
    · simp [List.dropWhile, hx, ih]
    · have hx2 : p x = false := by simpa using hx
      simp [List.dropWhile, hx2]

theorem trimRight_last (l : List Char) (c : Char) (h : (trimRight l).getLast? = some c) :
    isSpace c = false := by
  simp only [trimRight, List.getLast?_reverse] at h
  exact head_dropWhile_not isSpace _ c h

theorem trimRight_head (l : List Char) (c : Char) (hl : ∀ y, l.head? = some y → isSpace y = false)
    (h : (trimRight l).head? = some c) : isSpace c = false := by
  cases l with
  | nil => simp [trimRight] at h
  | cons y ys =>
    have hy := hl y rfl
    have : trimRight (y :: ys) = y :: (ys.reverse.dropWhile isSpace).reverse := by
      simp only [trimRight, List.reverse_cons, dropWhile_append_not isSpace _ y hy,
        List.reverse_append, List.reverse_singleton, List.singleton_append]
      simp
    rw [this] at h
    simp only [List.head?_cons, Option.some.injEq] at h
    rw [← h]; exact hy

/-- What `strings.TrimSpace` returns neither starts nor ends with white
space. -/
theorem TrimSpace_trimmed (s : String) (c : Char) :
    ((TrimSpace s).data.head? = some c → isSpace c = false) ∧
    ((TrimSpace s).data.getLast? = some c → isSpace c = false) := by
  refine ⟨?_, ?_⟩
  · intro h
    exact trimRight_head (s.data.dropWhile isSpace) c
      (fun y hy => head_dropWhile_not isSpace s.data y hy) h
  · intro h
    exact trimRight_last _ c h

/-- C15: a `Refresh` that finds the address set stale and whose GET
succeeds with the header value `h` issues the GET, returns nil and replaces
the address set by the pieces of `h` between the commas, each trimmed of
white space, without the pieces that are empty after trimming, in their
order; what was stored before has no part in the result, no stored address
is empty or starts or ends with white space, and the last-refresh time is
the time read when the refresh is recorded. -/
theorem Refresh_replaces_servers (d : RegistryDiscovery) (now after : Int) (h : String)
    (hstale : ¬ (d.lastUpdate + d.timeout.ns > now)) :
    (d.Refresh now (.ok h) after).2 = (none, true) ∧
    (d.Refresh now (.ok h) after).1.servers =
      ((Split h ',').map TrimSpace).filter (fun a => decide (a ≠ "")) ∧
    (d.Refresh now (.ok h) after).1.lastUpdate = after ∧
    (d.Refresh now (.ok h) after).1.registry = d.registry ∧
    (d.Refresh now (.ok h) after).1.timeout = d.timeout ∧
    (∀ a ∈ (d.Refresh now (.ok h) after).1.servers,
      a ≠ "" ∧ (∃ piece ∈ Split h ',', a = TrimSpace piece) ∧
      (∀ c, a.data.head? = some c → isSpace c = false) ∧
      (∀ c, a.data.getLast? = some c → isSpace c = false)) := by
  have heq : d.Refresh now (.ok h) after =
      ({ d with servers := refreshLoop (Split h ',') [], lastUpdate := after }, none, true) := by
    simp only [RegistryDiscovery.Refresh, hstale, if_false]
  rw [heq]
  refine ⟨rfl, ?_, rfl, rfl, rfl, ?_⟩
  · simp [refreshLoop_eq]
  · intro a ha
    simp only [refreshLoop_eq, List.nil_append, List.mem_filter, List.mem_map,
      decide_eq_true_eq] at ha
    obtain ⟨⟨piece, hpiece, rfl⟩, hne⟩ := ha
    exact ⟨hne, ⟨piece, hpiece, rfl⟩, fun c => (TrimSpace_trimmed piece c).1,
      fun c => (TrimSpace_trimmed piece c).2⟩

/-- Witness for C15: the first refresh of a new discovery. -/
theorem Refresh_replaces_servers_witness :
    ((NewRegistryDiscovery "http://localhost:9999/_tinyrpc_/registry" {}).Refresh 0
      (.ok " tcp@a:1 ,, tcp@b:2,  ") 5).1.servers = ["tcp@a:1", "tcp@b:2"] :=
  (Refresh_replaces_servers (NewRegistryDiscovery "http://localhost:9999/_tinyrpc_/registry" {})
    0 5 " tcp@a:1 ,, tcp@b:2,  " (by decide)).2.1.trans (by decide)

/-- C16, as amended: the staleness threshold of a discovery constructed
with timeout 0 is ten seconds; a `Refresh` inside the window returns nil,
issues no GET and leaves the discovery unchanged; and of two `Get` calls at
times `t1 ≤ t2` with `t2` earlier than `t1` plus the threshold, at most one
issues the GET, provided the GET of the first call, when it is issued,
succeeds. -/
theorem Get_refetches_at_most_once (d : RegistryDiscovery)
    (selectServer : List String → String × Option String) (t1 t2 after1 after2 : Int)
    (get1 get2 : Except String String)
    (_h12 : t1 ≤ t2) (hwin : t2 < t1 + d.timeout.ns) (hafter : t1 ≤ after1)
    (hget : (d.Get selectServer t1 get1 after1).2.2 = true → ∃ h, get1 = .ok h) :
    (∀ addr, (NewRegistryDiscovery addr {}).timeout.ns = 10000000000) ∧
    (∀ (now : Int) (get : Except String String) (after : Int),
      d.lastUpdate + d.timeout.ns > now → d.Refresh now get after = (d, none, false)) ∧
    ¬ ((d.Get selectServer t1 get1 after1).2.2 = true ∧
       ((d.Get selectServer t1 get1 after1).1.Get selectServer t2 get2 after2).2.2 = true) := by
  refine ⟨fun addr => by simp [NewRegistryDiscovery, defaultUpdateTimeout], ?_, ?_⟩
  · intro now get after hfresh
    simp [RegistryDiscovery.Refresh, hfresh]
  · rintro ⟨h1, h2⟩
    obtain ⟨h, rfl⟩ := hget h1
    by_cases hstale : d.lastUpdate + d.timeout.ns > t1
    · simp [RegistryDiscovery.Get, RegistryDiscovery.Refresh, hstale] at h1
    · have hfirst : (d.Get selectServer t1 (.ok h) after1).1 =
          { d with servers := refreshLoop (Split h ',') [], lastUpdate := after1 } := by
        simp [RegistryDiscovery.Get, RegistryDiscovery.Refresh, hstale]
      rw [hfirst] at h2
      have hfresh : after1 + d.timeout.ns > t2 := by omega
      simp [RegistryDiscovery.Get, RegistryDiscovery.Refresh, hfresh] at h2

/-- Witness for C16: two `Get` calls one second apart on a new discovery;
the first fetches, the second does not. -/
theorem Get_refetches_at_most_once_witness :
    ((NewRegistryDiscovery "r" {}).Get firstServer 0 (.ok "tcp@a:1") 0).2.2 = true ∧
    (((NewRegistryDiscovery "r" {}).Get firstServer 0 (.ok "tcp@a:1") 0).1.Get firstServer
      1000000000 (.ok "tcp@b:2") 1000000000).2.2 = false := by
  have h := (Get_refetches_at_most_once (NewRegistryDiscovery "r" {}) firstServer 0 1000000000 0
    1000000000 (.ok "tcp@a:1") (.ok "tcp@b:2") (by decide) (by decide) (by decide)
    (fun _ => ⟨"tcp@a:1", rfl⟩)).2.2
  have h1 : ((NewRegistryDiscovery "r" {}).Get firstServer 0 (.ok "tcp@a:1") 0).2.2 = true := by
    decide
  refine ⟨h1, ?_⟩
  cases h2 : (((NewRegistryDiscovery "r" {}).Get firstServer 0 (.ok "tcp@a:1") 0).1.Get
    firstServer 1000000000 (.ok "tcp@b:2") 1000000000).2.2 with
  | false => rfl
  | true => exact absurd ⟨h1, h2⟩ h

/-- Counterexample to C16 as stated: on a new discovery with the default
threshold of ten seconds, a `Get` at time 0 whose GET fails and a `Get` one
second later both issue the GET: the failed one recorded no refresh. -/
theorem Get_refetches_after_failed_GET :
    (NewRegistryDiscovery "r" {}).timeout.ns = 10000000000 ∧
    ((NewRegistryDiscovery "r" {}).Get firstServer 0 (.error "connection refused") 0).2.2
      = true ∧
    (((NewRegistryDiscovery "r" {}).Get firstServer 0 (.error "connection refused") 0).1.Get
      firstServer 1000000000 (.ok "tcp@a:1") 1000000000).2.2 = true := by
  decide

/-! ### The watch strategy -/

theorem deleteLoop_mem (server : String) (before l : List String) (h : server ∈ l) :
    ∃ pre post, l = pre ++ server :: post ∧ server ∉ pre ∧
      deleteLoop server before l = before ++ pre ++ post := by
  induction l generalizing before with
  | nil => simp at h
  | cons x rest ih =>
    by_cases hx : x = server
    · subst hx
      exact ⟨[], rest, rfl, by simp, by simp [deleteLoop]⟩
    · have hmem : server ∈ rest := by
        rcases List.mem_cons.mp h with h1 | h1
        · exact absurd h1.symm hx
        · exact h1
      obtain ⟨pre, post, hsplit, hpre, hdel⟩ := ih (before ++ [x]) hmem
      refine ⟨x :: pre, post, by simp [hsplit], ?_, ?_⟩
      · simp only [List.mem_cons, not_or]
        exact ⟨fun h1 => hx h1.symm, hpre⟩
      · simp [deleteLoop, hx, hdel]

theorem deleteLoop_not_mem (server : String) (before l : List String) (h : server ∉ l) :
    deleteLoop server before l = before ++ l := by
  induction l generalizing before with
  | nil => simp [deleteLoop]
  | cons x rest ih =>
    simp only [List.mem_cons, not_or] at h
    have hx : ¬ x = server := fun h1 => h.1 h1.symm
    simp [deleteLoop, hx, ih _ h.2]

/-- C17: in the watch strategy `AddServer(s)` yields the list with `s`
appended at the end, one longer, whether or not `s` was in it; and
`DeleteServer(s)` removes the first occurrence of `s` and nothing else,
keeping the other elements in their order, one shorter, and leaves the list
unchanged when `s` does not occur in it. -/
theorem AddServer_DeleteServer (d : EtcdDiscovery) (s : String) :
    (d.AddServer s).servers = d.servers ++ [s] ∧
    (d.AddServer s).servers.length = d.servers.length + 1 ∧
    (s ∈ d.servers → ∃ pre post, d.servers = pre ++ s :: post ∧ s ∉ pre ∧
      (d.DeleteServer s).servers = pre ++ post ∧
      (d.DeleteServer s).servers.length + 1 = d.servers.length) ∧
    (s ∉ d.servers → (d.DeleteServer s).servers = d.servers) ∧
    (d.DeleteServer s).key = d.key ∧ (d.AddServer s).key = d.key := by
  refine ⟨rfl, by simp [EtcdDiscovery.AddServer], ?_, ?_, rfl, rfl⟩
  · intro hmem
    obtain ⟨pre, post, hsplit, hpre, hdel⟩ := deleteLoop_mem s [] d.servers hmem
    have hres : (d.DeleteServer s).servers = pre ++ post := by
      simpa [EtcdDiscovery.DeleteServer] using hdel
    refine ⟨pre, post, hsplit, hpre, hres, ?_⟩
    rw [hres, hsplit]
    simp only [List.length_append, List.length_cons]
    omega
  · intro hmem
    simp [EtcdDiscovery.DeleteServer, deleteLoop_not_mem s [] d.servers hmem]

/-- Witness for C17: deleting `b` from `a, b, c, b` removes the first `b`
only. -/
theorem AddServer_DeleteServer_witness :
    (EtcdDiscovery.DeleteServer { servers := ["a", "b", "c", "b"] } "b").servers = ["a", "c", "b"] ∧
    (EtcdDiscovery.DeleteServer { servers := ["a", "c"] } "b").servers = ["a", "c"] :=
  ⟨by decide,
    (AddServer_DeleteServer { servers := ["a", "c"] } "b").2.2.2.1 (by decide)⟩

end Tinyrpc
